import Mathlib

set_option maxRecDepth 8000

/-!
Shallow embedding of the anagram-search program (src/main.rs) and proofs of
the specification claims.

The program reads a vocabulary, builds for each word a fingerprint (byte
length, byte-sum checksum stored in an `i32`, and a 256-entry `i8` byte
histogram), sorts the vocabulary by `(length, checksum)`, splits it into
runs of equal length, and within each run repeatedly pops a pivot from the
high end, scans backwards over the slots with equal checksum, extracts the
ones whose histogram matches, and records each nonempty match set as a
group keyed by the pivot's text.

Machine integers are embedded as `Int` with explicit wrap-around:
`wrap8` is the signed 8-bit wrap used for the `i8` histogram cells and
`wrap32` the signed 32-bit wrap used for the `i32` checksum.  Bytes are
`Fin 256`.  Code that can panic (the `unwrap` calls on candidate slots)
is embedded in `Option`, with `none` denoting a panic.
-/

/-- Bytes of the input text, as in Rust's `u8`. -/
abbrev Byte := Fin 256

/-- Signed 8-bit wrap-around: the value of an `i8` holding `n`. -/
def wrap8 (n : Int) : Int := (n + 128) % 256 - 128

/-- Signed 32-bit wrap-around: the value of an `i32` holding `n`. -/
def wrap32 (n : Int) : Int := (n + 2 ^ 31) % 2 ^ 32 - 2 ^ 31

/-- Embedding of `struct Word { string, string_sum: i32, char_tbl: [i8; 256] }`. -/
structure Word where
  string : List Byte
  string_sum : Int
  char_tbl : List Int
deriving DecidableEq, Repr

instance : Inhabited Word := ⟨⟨[], 0, List.replicate 256 0⟩⟩

/-- Embedding of `Word::_char_tbl`: one pass over the bytes incrementing a
256-entry table of `i8` counters (`table[*ch as usize] += 1`, with `i8`
wrap-around). -/
def Word._char_tbl (string : List Byte) : List Int :=
  string.foldl (fun table ch => table.set ch.val (wrap8 (table.getD ch.val 0 + 1)))
    (List.replicate 256 0)

/-- Embedding of `Word::_string_sum`: `i32` sum of the byte values. -/
def Word._string_sum (string : List Byte) : Int :=
  string.foldl (fun sum ch => wrap32 (sum + ch.val)) 0

/-- Embedding of `Word::new`. -/
def Word.new (string : List Byte) : Word :=
  { char_tbl := Word._char_tbl string
    string_sum := Word._string_sum string
    string := string }

/-- Embedding of `Word::len` (byte length of the text). -/
def Word.len (self : Word) : Nat := self.string.length

/-- Embedding of `Word::compare`: short-circuit on unequal checksums, then
compare the histogram in four 64-entry chunks (`i8x64` lane equality),
conjoining the chunk results. -/
def Word.compare (self other : Word) : Bool :=
  if self.string_sum != other.string_sum then false
  else
    (List.range 4).foldl
      (fun anagramatic i =>
        anagramatic &&
          ((self.char_tbl.drop (i * 64)).take 64 == (other.char_tbl.drop (i * 64)).take 64))
      true

/-- Embedding of the sort comparator in `WordList::from_file`: compare by
length, breaking ties by `_string_sum`; `sortLe a b` holds when the
comparator does not answer `Greater`. -/
def sortLe (a b : List Byte) : Bool :=
  if a.length = b.length then decide (Word._string_sum a ≤ Word._string_sum b)
  else decide (a.length ≤ b.length)

/-- Stable insertion of a line into a list sorted by the comparator. -/
def insertLine (line : List Byte) : List (List Byte) → List (List Byte)
  | [] => [line]
  | t :: rest => if sortLe line t then line :: t :: rest else t :: insertLine line rest

/-- Stable sort of the raw lines by the comparator, modelling
`raw_lines.sort_by(...)` (insertion sort, chosen for a computable
embedding; any stable comparison sort has the same result). -/
def sortLines : List (List Byte) → List (List Byte)
  | [] => []
  | line :: rest => insertLine line (sortLines rest)

/-- Embedding of `WordList::from_file` minus the file I/O: sort the raw
lines with the comparator, then build a `Word` from each line. -/
def WordList.from_file (raw_lines : List (List Byte)) : List Word :=
  (sortLines raw_lines).map Word.new

/-- Embedding of the `while` loop in `WordListIter::next` advancing
`idx_end` while the word there has length `L`; the fuel argument bounds
the number of iterations and `words.length` is always enough. -/
def advanceEnd (words : List Word) (L : Nat) : Nat → Nat → Nat
  | 0, e => e
  | fuel + 1, e =>
    if e < words.length ∧ (words.getD e default).len = L then
      advanceEnd words L fuel (e + 1)
    else e

/-- Fuelled embedding of repeatedly calling `WordListIter::next` from the
state `(idx, idxEnd)`; each yielded item is the slice
`words[idxEnd' .. advanceEnd]` wrapped in `Some` slots, exactly as the
iterator builds `Vec<Option<&Word>>`.  Note the segment length is read at
the stale index `idx` before the cursor moves, as in the source. -/
def segsFuel (words : List Word) : Nat → Nat → Nat → List (List (Option Word))
  | 0, _, _ => []
  | fuel + 1, idx, idxEnd =>
    if idxEnd ≥ words.length then []
    else
      let L := (words.getD idx default).len
      let e2 := advanceEnd words L words.length idxEnd
      ((words.drop idxEnd).take (e2 - idxEnd)).map some ::
        segsFuel words fuel idxEnd e2

/-- Embedding of `WordList::segments` run to exhaustion: the list of all
items yielded by the iterator starting from `idx = idx_end = 0`.  The fuel
`2 * words.length + 1` is enough for every call the iterator can make. -/
def WordList.segments (words : List Word) : List (List (Option Word)) :=
  segsFuel words (2 * words.length + 1) 0 0

/-- Embedding of the inner pivot loop of `main`: pop slots from the high
end of the segment, discarding `None` slots, until a present word is found
(`some (w, rest)`) or the segment is exhausted (`none`). -/
def popPivot : List (Option Word) → Option (Word × List (Option Word))
  | [] => none
  | o :: rest =>
    match popPivot rest with
    | some (w, r) => some (w, o :: r)
    | none => o.map (fun w => (w, []))

/-- Embedding of the candidate scan and match loop of `main`, acting on the
reversed remaining segment (so the head is the slot just below the pivot).
Returns `(candidates, anagrams, updated slots)`; a `none` slot hit during
the scan is the `cndt.unwrap()` panic, embedded as result `none`.  Slots
whose word matches are replaced by `none` (`candidate.take()`), and the
scan stops at the first slot whose checksum differs from the pivot's. -/
def scanAndMatch (word : Word) : List (Option Word) → Option (List Word × List Word × List (Option Word))
  | [] => some ([], [], [])
  | none :: _ => none
  | some c :: rest =>
    if c.string_sum = word.string_sum then
      match scanAndMatch word rest with
      | none => none
      | some (cndts, anas, rest2) =>
        if word.compare c then some (c :: cndts, c :: anas, none :: rest2)
        else some (c :: cndts, anas, some c :: rest2)
    else some ([], [], some c :: rest)

/-- Embedding of `HashMap::insert` on the group map, represented as an
association list: replace the entry with an equal key if present,
otherwise add a new entry. -/
def insertGroup (groups : List (List Byte × List Word)) (k : List Byte) (v : List Word) :
    List (List Byte × List Word) :=
  if groups.any (fun p => p.1 == k) then
    groups.map (fun p => if p.1 == k then (k, v) else p)
  else groups ++ [(k, v)]

/-- Embedding of the per-segment `'outer` loop of `main`: pop a pivot,
scan and match the remaining slots (in reverse), and either continue
unchanged (no anagrams) or compact the `None` slots away
(`drain_filter(|w| w.is_none())`) and record the group keyed by the
pivot's text.  A `none` result is a panic (or exhausted fuel; one unit of
fuel per pivot is consumed, so `seg.length + 1` always suffices). -/
def segLoopFuel : Nat → List (Option Word) → List (List Byte × List Word) →
    Option (List (List Byte × List Word))
  | 0, _, _ => none
  | fuel + 1, seg, groups =>
    match popPivot seg with
    | none => some groups
    | some (word, s1) =>
      match scanAndMatch word s1.reverse with
      | none => none
      | some (_cndts, anagrams, rs) =>
        if anagrams.isEmpty then segLoopFuel fuel rs.reverse groups
        else
          segLoopFuel fuel ((rs.reverse).filter (fun o => o.isSome))
            (insertGroup groups word.string anagrams)

/-- The per-segment loop with enough fuel for every pivot round. -/
def segLoop (seg : List (Option Word)) (groups : List (List Byte × List Word)) :
    Option (List (List Byte × List Word)) :=
  segLoopFuel (seg.length + 1) seg groups

/-- Embedding of the whole grouping phase of `main`: fold the per-segment
loop over all yielded segments, starting from an empty group map. -/
def mainGroups (raw_lines : List (List Byte)) : Option (List (List Byte × List Word)) :=
  (WordList.segments (WordList.from_file raw_lines)).foldl
    (fun acc seg => acc.bind (fun groups => segLoop seg groups)) (some [])

/-! ### Specification-side definitions used to state the claims -/

/-- Maximal contiguous runs of equal-length words, in order. -/
def lenRuns : List Word → List (List Word)
  | [] => []
  | w :: ws =>
    ((w :: ws).takeWhile (fun v => v.len == w.len)) ::
      lenRuns ((w :: ws).dropWhile (fun v => v.len == w.len))
termination_by l => l.length
decreasing_by
  simp only [List.dropWhile_cons, beq_self_eq_true, if_true]
  exact Nat.lt_succ_of_le (List.dropWhile_sublist _).length_le

/-- Multiset of all word texts appearing in the group map, keys and
members alike, with multiplicity. -/
def groupUsage (groups : List (List Byte × List Word)) : Multiset (List Byte) :=
  ↑(groups.flatMap (fun g => g.1 :: g.2.map Word.string))

/-- Texts of a vocabulary that have at least one anagram partner among the
other occurrences: the occurrences whose permutation class has two or more
members, counted with multiplicity. -/
def pairedMS (m : Multiset (List Byte)) : Multiset (List Byte) :=
  m.filter (fun s => 2 ≤ m.countP (fun t => t.Perm s))

/-- Sortedness of the present words of a segment by ascending checksum. -/
def sortedBySum (seg : List (Option Word)) : Prop :=
  (seg.filterMap id).Pairwise (fun a b => a.string_sum ≤ b.string_sum)

/-- Byte texts of the scenario-A vocabulary. -/
def eatL : List Byte := [101, 97, 116]
def teaL : List Byte := [116, 101, 97]
def ateL : List Byte := [97, 116, 101]
def batL : List Byte := [98, 97, 116]
def tabL : List Byte := [116, 97, 98]
def catL : List Byte := [99, 97, 116]

/-- Byte texts of the scenario-D vocabulary. -/
def abL : List Byte := [97, 98]
def baL : List Byte := [98, 97]

/-- Texts whose `i8` histograms coincide after wrap-around although their
byte multisets differ: 256 NUL bytes and 256 bytes `2` against 512 bytes
`1`; both have byte sum 512 and an all-zero wrapped histogram. -/
def cexA : List Byte := List.replicate 256 0 ++ List.replicate 256 2
def cexB : List Byte := List.replicate 512 1

/-! ### Shape lemmas for the loop primitives -/

theorem popPivot_length_lt :
    ∀ {seg : List (Option Word)} {w s1}, popPivot seg = some (w, s1) → s1.length < seg.length := by
  intro seg
  induction seg with
  | nil => intro w s1 h; simp [popPivot] at h
  | cons o rest ih =>
    intro w s1 h
    unfold popPivot at h
    cases hr : popPivot rest with
    | some p =>
      rw [hr] at h
      cases p with
      | mk w' r =>
        simp only [Option.some.injEq, Prod.mk.injEq] at h
        obtain ⟨rfl, rfl⟩ := h
        simpa using Nat.succ_lt_succ (ih hr)
    | none =>
      rw [hr] at h
      cases o with
      | some w' =>
        simp only [Option.map_some', Option.some.injEq, Prod.mk.injEq] at h
        obtain ⟨rfl, rfl⟩ := h
        simp
      | none => simp at h

theorem scanAndMatch_length :
    ∀ {w : Word} {rseg : List (Option Word)} {c a rs},
      scanAndMatch w rseg = some (c, a, rs) → rs.length = rseg.length := by
  intro w rseg
  induction rseg with
  | nil => intro c a rs h; simp [scanAndMatch] at h; simp [h.2.2]
  | cons o rest ih =>
    intro c a rs h
    cases o with
    | none => simp [scanAndMatch] at h
    | some v =>
      unfold scanAndMatch at h
      by_cases hsum : v.string_sum = w.string_sum
      · rw [if_pos hsum] at h
        cases hr : scanAndMatch w rest with
        | none => rw [hr] at h; simp at h
        | some p =>
          rw [hr] at h
          obtain ⟨cndts, anas, rest2⟩ := p
          by_cases hcmp : w.compare v
          · simp only [hcmp, if_true, Option.some.injEq, Prod.mk.injEq] at h
            obtain ⟨-, -, rfl⟩ := h
            simpa using ih hr
          · simp only [hcmp, if_false, Option.some.injEq, Prod.mk.injEq, Bool.false_eq_true] at h
            obtain ⟨-, -, rfl⟩ := h
            simpa using ih hr
      · rw [if_neg hsum] at h
        simp only [Option.some.injEq, Prod.mk.injEq] at h
        obtain ⟨-, -, rfl⟩ := h
        simp


/-! ### Arithmetic facts about the machine-integer wraps -/

theorem wrap8_range (x : Int) : -128 ≤ wrap8 x ∧ wrap8 x ≤ 127 := by
  unfold wrap8; omega

theorem wrap8_eq_self {x : Int} (h1 : -128 ≤ x) (h2 : x ≤ 127) : wrap8 x = x := by
  unfold wrap8; omega

theorem wrap8_wrap8_add (x y : Int) : wrap8 (wrap8 x + y) = wrap8 (x + y) := by
  unfold wrap8; omega

theorem wrap8_inj {x y : Int} (hx0 : 0 ≤ x) (hx : x < 256) (hy0 : 0 ≤ y) (hy : y < 256)
    (h : wrap8 x = wrap8 y) : x = y := by
  unfold wrap8 at h; omega

theorem wrap32_range (x : Int) : -(2 ^ 31) ≤ wrap32 x ∧ wrap32 x ≤ 2 ^ 31 - 1 := by
  unfold wrap32; omega

theorem wrap32_eq_self {x : Int} (h1 : -(2 ^ 31) ≤ x) (h2 : x ≤ 2 ^ 31 - 1) : wrap32 x = x := by
  unfold wrap32; omega

theorem wrap32_wrap32_add (x y : Int) : wrap32 (wrap32 x + y) = wrap32 (x + y) := by
  unfold wrap32; omega

/-! ### The histogram and checksum computed by `Word::new` -/


theorem char_tbl_foldl_length (s : List Byte) :
    ∀ tbl : List Int,
      (s.foldl (fun table ch => table.set ch.val (wrap8 (table.getD ch.val 0 + 1))) tbl).length
        = tbl.length := by
  induction s with
  | nil => intro tbl; rfl
  | cons c rest ih =>
    intro tbl
    rw [List.foldl_cons, ih (tbl.set c.val (wrap8 (tbl.getD c.val 0 + 1))), List.length_set]

theorem char_tbl_length (s : List Byte) : (Word._char_tbl s).length = 256 := by
  unfold Word._char_tbl
  rw [char_tbl_foldl_length s (List.replicate 256 0), List.length_replicate]

theorem getD_replicate_zero (i : Nat) : (List.replicate 256 (0 : Int)).getD i 0 = 0 := by
  rw [List.getD_eq_getElem?_getD, List.getElem?_replicate]
  by_cases h : i < 256
  · rw [if_pos h, Option.getD_some]
  · rw [if_neg h, Option.getD_none]

theorem char_tbl_foldl_getD (s : List Byte) :
    ∀ tbl : List Int, tbl.length = 256 →
      (∀ i : Nat, -128 ≤ tbl.getD i 0 ∧ tbl.getD i 0 ≤ 127) →
      ∀ b : Byte,
        (s.foldl (fun table ch => table.set ch.val (wrap8 (table.getD ch.val 0 + 1))) tbl).getD b.val 0
          = wrap8 (tbl.getD b.val 0 + (s.count b : Int)) := by
  induction s with
  | nil =>
    intro tbl _ hrange b
    rw [List.foldl_nil, List.count_nil, Int.natCast_zero, add_zero,
      wrap8_eq_self (hrange b.val).1 (hrange b.val).2]
  | cons c rest ih =>
    intro tbl hlen hrange b
    have hcval : c.val < tbl.length := by rw [hlen]; exact c.isLt
    have hset_len : (tbl.set c.val (wrap8 (tbl.getD c.val 0 + 1))).length = 256 := by
      rw [List.length_set]; exact hlen
    have hset_range : ∀ i : Nat,
        -128 ≤ (tbl.set c.val (wrap8 (tbl.getD c.val 0 + 1))).getD i 0 ∧
          (tbl.set c.val (wrap8 (tbl.getD c.val 0 + 1))).getD i 0 ≤ 127 := by
      intro i
      by_cases hic : c.val = i
      · subst hic
        rw [List.getD_eq_getElem?_getD, List.getElem?_set_self hcval, Option.getD_some]
        exact wrap8_range _
      · rw [List.getD_eq_getElem?_getD, List.getElem?_set_ne hic, ← List.getD_eq_getElem?_getD]
        exact hrange i
    rw [List.foldl_cons, ih _ hset_len hset_range b]
    by_cases hcb : c = b
    · subst hcb
      rw [List.getD_eq_getElem?_getD, List.getElem?_set_self hcval, Option.getD_some,
        wrap8_wrap8_add, List.count_cons_self]
      have hcast : ((rest.count c + 1 : Nat) : Int) = (rest.count c : Int) + 1 := by push_cast; ring
      rw [hcast]
      ring_nf
    · have hv : c.val ≠ b.val := fun h => hcb (Fin.val_injective h)
      rw [List.getD_eq_getElem?_getD, List.getElem?_set_ne hv, ← List.getD_eq_getElem?_getD,
        List.count_cons_of_ne (fun h => hcb h.symm)]

/-- The histogram cell for byte `b` holds the 8-bit wrap of the number of
occurrences of `b` in the text. -/
theorem char_tbl_getD (s : List Byte) (b : Byte) :
    (Word._char_tbl s).getD b.val 0 = wrap8 (s.count b : Int) := by
  unfold Word._char_tbl
  rw [char_tbl_foldl_getD s (List.replicate 256 0) (by rw [List.length_replicate])
    (fun i => by rw [getD_replicate_zero]; norm_num) b]
  rw [getD_replicate_zero, zero_add]

theorem byteSum_le (s : List Byte) : (s.map Fin.val).sum ≤ 255 * s.length := by
  induction s with
  | nil => simp
  | cons c rest ih =>
    simp only [List.map_cons, List.sum_cons, List.length_cons]
    have h1 : c.val ≤ 255 := Nat.lt_succ_iff.mp c.isLt
    omega

theorem byteSum_lt (s : List Byte) (h : s.length < 256) :
    ((s.map Fin.val).sum : Int) < 2 ^ 31 := by
  have hb := byteSum_le s
  have : (s.map Fin.val).sum < 256 * 256 := by omega
  omega

theorem string_sum_foldl (s : List Byte) :
    ∀ init : Int, -(2 ^ 31) ≤ init → init ≤ 2 ^ 31 - 1 →
      s.foldl (fun sum ch => wrap32 (sum + ch.val)) init
        = wrap32 (init + ((s.map Fin.val).sum : Int)) := by
  induction s with
  | nil =>
    intro init h1 h2
    rw [List.foldl_nil, List.map_nil, List.sum_nil, Int.natCast_zero, add_zero,
      wrap32_eq_self h1 h2]
  | cons c rest ih =>
    intro init h1 h2
    rw [List.foldl_cons, ih _ (wrap32_range _).1 (wrap32_range _).2, wrap32_wrap32_add]
    simp only [List.map_cons, List.sum_cons]
    push_cast
    ring_nf

/-- The checksum is the 32-bit wrap of the plain byte sum. -/
theorem string_sum_spec (s : List Byte) :
    Word._string_sum s = wrap32 ((s.map Fin.val).sum : Int) := by
  unfold Word._string_sum
  rw [string_sum_foldl s 0 (by norm_num) (by norm_num), zero_add]

/-- For short texts the checksum is the exact byte sum. -/
theorem string_sum_eq_of_short (s : List Byte) (h : s.length < 256) :
    Word._string_sum s = ((s.map Fin.val).sum : Int) := by
  rw [string_sum_spec]
  have h0 : (0 : Int) ≤ ((s.map Fin.val).sum : Int) := Int.natCast_nonneg _
  have h1 := byteSum_lt s h
  exact wrap32_eq_self (by omega) (by omega)

/-- Permutation-invariance of the checksum. -/
theorem string_sum_perm {a b : List Byte} (h : a.Perm b) :
    Word._string_sum a = Word._string_sum b := by
  rw [string_sum_spec, string_sum_spec, (h.map Fin.val).sum_eq]

/-! ### Characterization of `Word::compare` -/

theorem eq_append_chunks (l : List Int) (hl : l.length = 256) :
    l = l.take 64 ++ ((l.drop 64).take 64 ++ ((l.drop 128).take 64 ++ l.drop 192)) := by
  have h1 : l = l.take 64 ++ l.drop 64 := (List.take_append_drop 64 l).symm
  have h2 : l.drop 64 = (l.drop 64).take 64 ++ l.drop 128 := by
    have := (List.take_append_drop 64 (l.drop 64)).symm
    rwa [List.drop_drop] at this
  have h3 : l.drop 128 = (l.drop 128).take 64 ++ l.drop 192 := by
    have := (List.take_append_drop 64 (l.drop 128)).symm
    rwa [List.drop_drop] at this
  conv_lhs => rw [h1, h2, h3]

theorem drop192_take (l : List Int) (hl : l.length = 256) : (l.drop 192).take 64 = l.drop 192 := by
  apply List.take_of_length_le
  rw [List.length_drop, hl]

theorem chunks_eq_iff {l m : List Int} (hl : l.length = 256) (hm : m.length = 256) :
    (l.take 64 = m.take 64 ∧ (l.drop 64).take 64 = (m.drop 64).take 64 ∧
      (l.drop 128).take 64 = (m.drop 128).take 64 ∧
      (l.drop 192).take 64 = (m.drop 192).take 64) ↔ l = m := by
  constructor
  · rintro ⟨h0, h1, h2, h3⟩
    rw [drop192_take l hl, drop192_take m hm] at h3
    rw [eq_append_chunks l hl, eq_append_chunks m hm, h0, h1, h2, h3]
  · rintro rfl
    exact ⟨rfl, rfl, rfl, rfl⟩

/-- Unfolding of `Word::compare`: it answers `true` exactly when the two
checksums agree and the two histogram tables are identical. -/
theorem compare_eq_true_iff {a b : Word} (ha : a.char_tbl.length = 256)
    (hb : b.char_tbl.length = 256) :
    a.compare b = true ↔ (a.string_sum = b.string_sum ∧ a.char_tbl = b.char_tbl) := by
  unfold Word.compare
  by_cases hsum : a.string_sum = b.string_sum
  · have hbne : (a.string_sum != b.string_sum) = false := by
      simp [bne, hsum]
    rw [hbne, if_neg (by simp)]
    have hrange : List.range 4 = [0, 1, 2, 3] := rfl
    rw [hrange]
    simp only [List.foldl_cons, List.foldl_nil, Bool.true_and, Bool.and_eq_true, beq_iff_eq]
    norm_num
    constructor
    · rintro ⟨⟨⟨h0, h1⟩, h2⟩, h3⟩
      exact ⟨hsum, (chunks_eq_iff ha hb).mp ⟨h0, h1, h2, h3⟩⟩
    · rintro ⟨-, h⟩
      rw [h]
      exact ⟨⟨⟨rfl, rfl⟩, rfl⟩, rfl⟩
  · have hbne : (a.string_sum != b.string_sum) = true := by
      simp [bne, hsum]
    rw [hbne, if_pos rfl]
    simp [hsum]

/-- Unequal checksums force `compare` to answer `false`, with no
assumptions on the words. -/
theorem compare_sum {a b : Word} (h : a.compare b = true) : a.string_sum = b.string_sum := by
  unfold Word.compare at h
  by_cases hsum : a.string_sum = b.string_sum
  · exact hsum
  · have hbne : (a.string_sum != b.string_sum) = true := by simp [bne, hsum]
    rw [hbne, if_pos rfl] at h
    exact absurd h (by simp)

theorem tbl_ext {l m : List Int} (hl : l.length = 256) (hm : m.length = 256)
    (h : ∀ x : Byte, l.getD x.val 0 = m.getD x.val 0) : l = m := by
  apply List.ext_getElem (by rw [hl, hm])
  intro i h1 h2
  have hi : i < 256 := by rw [hl] at h1; exact h1
  have := h ⟨i, hi⟩
  rwa [List.getD_eq_getElem?_getD, List.getD_eq_getElem?_getD, List.getElem?_eq_getElem h1,
    List.getElem?_eq_getElem h2, Option.getD_some, Option.getD_some] at this

/-- On words built from texts shorter than 256 bytes, `compare` decides
byte-multiset equality exactly. -/
theorem compare_new_iff {a b : List Byte} (ha : a.length < 256) (hb : b.length < 256) :
    Word.compare (Word.new a) (Word.new b) = true ↔ a.Perm b := by
  have hta : (Word.new a).char_tbl.length = 256 := char_tbl_length a
  have htb : (Word.new b).char_tbl.length = 256 := char_tbl_length b
  rw [compare_eq_true_iff hta htb]
  constructor
  · rintro ⟨-, htbl⟩
    rw [List.perm_iff_count]
    intro x
    have hx := congrArg (fun l => l.getD x.val 0) htbl
    simp only [Word.new] at hx
    rw [char_tbl_getD, char_tbl_getD] at hx
    have hca : a.count x < 256 := Nat.lt_of_le_of_lt (List.count_le_length x a) ha
    have hcb : b.count x < 256 := Nat.lt_of_le_of_lt (List.count_le_length x b) hb
    have := wrap8_inj (x := (a.count x : Int)) (y := (b.count x : Int))
      (Int.natCast_nonneg _) (by exact_mod_cast hca) (Int.natCast_nonneg _)
      (by exact_mod_cast hcb) hx
    exact_mod_cast this
  · intro hperm
    refine ⟨string_sum_perm hperm, ?_⟩
    apply tbl_ext hta htb
    intro x
    show (Word._char_tbl a).getD x.val 0 = (Word._char_tbl b).getD x.val 0
    rw [char_tbl_getD, char_tbl_getD, hperm.count_eq]

/-! ### Claims C1 and C2: the fingerprint -/

/-- Claim C1, counterexample: the equal-length texts `cexA` and `cexB`
have different byte multisets (`cexA` has no byte `1`, `cexB` has 512 of
them), yet `compare` answers `true` because every histogram cell wraps to
the same `i8` value and the checksums agree. -/
theorem count_cexA (x : Byte) :
    cexA.count x = (if (0 : Byte) == x then 256 else 0) + (if (2 : Byte) == x then 256 else 0) := by
  rw [cexA, List.count_append, List.count_replicate, List.count_replicate]

theorem count_cexB (x : Byte) : cexB.count x = if (1 : Byte) == x then 512 else 0 := by
  rw [cexB, List.count_replicate]

theorem C1_counterexample :
    cexA.length = cexB.length ∧
      Word.compare (Word.new cexA) (Word.new cexB) = true ∧ ¬ cexA.Perm cexB := by
  have hlenA : cexA.length = 512 := by rw [cexA]; simp
  have hlenB : cexB.length = 512 := by rw [cexB]; simp
  refine ⟨by rw [hlenA, hlenB], ?_, ?_⟩
  · rw [compare_eq_true_iff (char_tbl_length cexA) (char_tbl_length cexB)]
    constructor
    · show Word._string_sum cexA = Word._string_sum cexB
      rw [string_sum_spec, string_sum_spec]
      have hA : ((cexA.map Fin.val).sum : Int) = 512 := by
        rw [cexA]; simp [List.map_replicate, List.sum_replicate]
      have hB : ((cexB.map Fin.val).sum : Int) = 512 := by
        rw [cexB]; simp [List.map_replicate, List.sum_replicate]
      rw [hA, hB]
    · show Word._char_tbl cexA = Word._char_tbl cexB
      apply tbl_ext (char_tbl_length cexA) (char_tbl_length cexB)
      intro x
      rw [char_tbl_getD, char_tbl_getD, count_cexA, count_cexB]
      split_ifs <;> simp_all <;> rfl
  · intro h
    have := h.count_eq 1
    rw [count_cexA, count_cexB] at this
    simp at this

/-- Claim C1 (corrected): restricted to texts shorter than 256 bytes — so
that no histogram cell can wrap — `compare` on two equal-length words
answers `true` exactly when the two texts are byte-multiset equal. -/
theorem C1_amended (a b : List Byte) (hlen : a.length = b.length) (ha : a.length < 256) :
    Word.compare (Word.new a) (Word.new b) = true ↔ a.Perm b :=
  compare_new_iff ha (hlen ▸ ha)

theorem C1_witness :
    Word.compare (Word.new [(97 : Byte), 98]) (Word.new [(98 : Byte), 97]) = true :=
  (C1_amended [(97 : Byte), 98] [(98 : Byte), 97] rfl (by decide)).mpr (by decide)

/-- Claim C2, counterexample: in the text of 128 NUL bytes the byte `0`
occurs 128 times, but the `i8` histogram cell wraps to `-128`. -/
theorem C2_counterexample :
    (Word.new (List.replicate 128 (0 : Byte))).char_tbl.getD 0 0 ≠
      ((List.replicate 128 (0 : Byte)).count 0 : Int) := by
  show (Word._char_tbl _).getD (0 : Byte).val 0 ≠ _
  rw [char_tbl_getD, List.count_replicate]
  norm_num [wrap8]

/-- Claim C2 (corrected): construction is total (`Word.new` accepts every
byte sequence, including the empty one) and the histogram cell for byte
`b` holds the signed 8-bit wrap of the occurrence count of `b` — which is
the exact count whenever that count is at most 127. -/
theorem C2_amended (s : List Byte) (b : Byte) :
    (Word.new s).char_tbl.getD b.val 0 = wrap8 (s.count b : Int) ∧
      (Word.new s).char_tbl.length = 256 ∧
      (s.count b ≤ 127 → (Word.new s).char_tbl.getD b.val 0 = (s.count b : Int)) := by
  refine ⟨char_tbl_getD s b, char_tbl_length s, fun h => ?_⟩
  show (Word._char_tbl s).getD b.val 0 = _
  rw [char_tbl_getD s b]
  exact wrap8_eq_self (by have := Int.natCast_nonneg (s.count b); omega) (by exact_mod_cast h)

theorem C2_witness :
    (Word.new [(97 : Byte), 98, 97]).char_tbl.getD 97 0 = 2 := by
  have h := (C2_amended [(97 : Byte), 98, 97] ⟨97, by omega⟩).2.2 (by decide)
  rw [h]
  decide

/-! ### Characterization of the segment iterator -/

theorem advanceEnd_spec (words : List Word) (L : Nat) :
    ∀ fuel e, words.length ≤ e + fuel →
      advanceEnd words L fuel e
        = e + ((words.drop e).takeWhile (fun v => v.len == L)).length := by
  intro fuel
  induction fuel with
  | zero =>
    intro e he
    have hge : words.length ≤ e := by omega
    show e = e + ((words.drop e).takeWhile (fun v => v.len == L)).length
    rw [List.drop_eq_nil_of_le hge, List.takeWhile_nil]
    rfl
  | succ fuel ih =>
    intro e he
    show (if e < words.length ∧ (words.getD e default).len = L then
        advanceEnd words L fuel (e + 1)
      else e) = _
    by_cases hcond : e < words.length ∧ (words.getD e default).len = L
    · rw [if_pos hcond, ih (e + 1) (by omega)]
      have hdrop := List.drop_eq_getElem_cons (l := words) (n := e) hcond.1
      have hgetD : words.getD e default = words[e] := by
        simp [List.getD_eq_getElem?_getD, List.getElem?_eq_getElem hcond.1]
      have hp : (words[e].len == L) = true := by
        rw [beq_iff_eq, ← hgetD]; exact hcond.2
      rw [hdrop, List.takeWhile_cons, if_pos hp, List.length_cons]
      omega
    · rw [if_neg hcond]
      by_cases hlt : e < words.length
      · have hdrop := List.drop_eq_getElem_cons (l := words) (n := e) hlt
        have hgetD : words.getD e default = words[e] := by
          simp [List.getD_eq_getElem?_getD, List.getElem?_eq_getElem hlt]
        have hlen : ¬ words[e].len = L := by
          intro hL
          exact hcond ⟨hlt, by rw [hgetD]; exact hL⟩
        have hp : (words[e].len == L) = false := by
          rw [beq_eq_false_iff_ne]; exact hlen
        rw [hdrop, List.takeWhile_cons, if_neg (by rw [hp]; exact Bool.false_ne_true),
          List.length_nil]
        omega
      · rw [List.drop_eq_nil_of_le (by omega), List.takeWhile_nil]
        rfl

theorem lenRuns_nil : lenRuns [] = [] := by
  rw [lenRuns]

theorem lenRuns_cons (w : Word) (ws : List Word) :
    lenRuns (w :: ws) =
      ((w :: ws).takeWhile (fun v => v.len == w.len)) ::
        lenRuns ((w :: ws).dropWhile (fun v => v.len == w.len)) := by
  rw [lenRuns]

theorem segsFuel_B (words : List Word) :
    ∀ (k fuel e : Nat), words.length - e ≤ k → 2 * k ≤ fuel →
      segsFuel words (fuel + 1) e e =
        List.intersperse [] ((lenRuns (words.drop e)).map (fun r => r.map some)) := by
  intro k
  induction k with
  | zero =>
    intro fuel e he _
    have hge : words.length ≤ e := by omega
    simp only [segsFuel, if_pos hge]
    rw [List.drop_eq_nil_of_le hge, lenRuns_nil]
    rfl
  | succ k ih =>
    intro fuel e he hfuel
    by_cases hlt : e < words.length
    case neg =>
      simp only [segsFuel, if_pos (by omega : words.length ≤ e)]
      rw [List.drop_eq_nil_of_le (by omega), lenRuns_nil]
      rfl
    case pos =>
      have hgetD : words.getD e default = words[e] := by
        simp [List.getD_eq_getElem?_getD, List.getElem?_eq_getElem hlt]
      have hdrop := List.drop_eq_getElem_cons (l := words) (n := e) hlt
      -- the run starting at e
      set p : Word → Bool := fun v => v.len == words[e].len with hp
      have hL : (words.getD e default).len = words[e].len := by rw [hgetD]
      set tw : List Word := (words.drop e).takeWhile p with htw
      set dw : List Word := (words.drop e).dropWhile p with hdw
      have htwdw : tw ++ dw = words.drop e := List.takeWhile_append_dropWhile p (words.drop e)
      have htw_ne : tw ≠ [] := by
        rw [htw, hdrop, List.takeWhile_cons, if_pos (by rw [hp, beq_iff_eq])]
        exact List.cons_ne_nil _ _
      have htw_len_pos : 0 < tw.length := List.length_pos.mpr htw_ne
      have hlen_split : tw.length + dw.length = words.length - e := by
        have := congrArg List.length htwdw
        rw [List.length_append, List.length_drop] at this
        exact this
      have hadv : advanceEnd words (words.getD e default).len words.length e
          = e + tw.length := by
        rw [advanceEnd_spec words _ words.length e (by omega), hL, htw]
      -- fuel must be at least 2
      obtain ⟨f, rfl⟩ : ∃ f, fuel = f + 1 := ⟨fuel - 1, by omega⟩
      simp only [segsFuel, if_neg (by omega : ¬ words.length ≤ e)]
      rw [hadv]
      have hslice : ((words.drop e).take (e + tw.length - e)).map some = tw.map some := by
        have : e + tw.length - e = tw.length := by omega
        rw [this, ← htwdw, List.take_left]
      rw [hslice]
      -- the A-state call with cursor at the end of the run
      have hruns : lenRuns (words.drop e) = tw :: lenRuns dw := by
        rw [hdrop, lenRuns_cons, ← hdrop, ← htw, ← hdw]
      by_cases hend : e + tw.length < words.length
      case neg =>
        -- the run reaches the end of the vocabulary: the next call yields nothing
        have hdw_nil : dw = [] := by
          have : dw.length = 0 := by omega
          exact List.length_eq_zero.mp this
        rw [if_pos (by omega : e + tw.length ≥ words.length), hruns, hdw_nil, lenRuns_nil]
        rfl
      case pos =>
        -- stale-index step: the iterator reads the previous run's length and
        -- yields an empty slice before starting the next run
        have hdw_ne : dw ≠ [] := by
          intro hnil
          rw [hnil] at hlen_split
          simp at hlen_split
          omega
        have hdw_eq : words.drop (e + tw.length) = dw := by
          calc words.drop (e + tw.length) = (words.drop e).drop tw.length := by
                rw [List.drop_drop]
          _ = dw := by rw [← htwdw, List.drop_left]
        have hhead_fail : p (dw.head hdw_ne) = false :=
          List.head_dropWhile_not p (words.drop e) hdw_ne
        have hadv2 : advanceEnd words (words.getD e default).len words.length (e + tw.length)
            = e + tw.length := by
          rw [advanceEnd_spec words _ words.length (e + tw.length) (by omega), hL]
          have hfail2 : ((dw.head hdw_ne).len == words[e].len) = false := by
            rw [hp] at hhead_fail
            exact hhead_fail
          have htk : (words.drop (e + tw.length)).takeWhile (fun v => v.len == words[e].len)
              = [] := by
            rw [hdw_eq, ← List.head_cons_tail dw hdw_ne, List.takeWhile_cons,
              if_neg (by rw [hfail2]; exact Bool.false_ne_true)]
          rw [htk]
          rfl
        rw [if_neg (by omega : ¬ e + tw.length ≥ words.length), hadv2, Nat.sub_self,
          List.take_zero, List.map_nil]
        obtain ⟨f', rfl⟩ : ∃ f', f = f' + 1 := ⟨f - 1, by omega⟩
        rw [ih f' (e + tw.length) (by omega) (by omega), hdw_eq, hruns]
        -- lenRuns dw is nonempty, so the interspersed empty item appears
        obtain ⟨r, rest, hr⟩ : ∃ r rest, lenRuns dw = r :: rest := by
          cases hdw3 : dw with
          | nil => exact absurd hdw3 hdw_ne
          | cons x xs =>
            rw [lenRuns_cons]
            exact ⟨_, _, rfl⟩
        rw [hr]
        simp only [List.map_cons]
        rw [List.intersperse_cons_cons]


/-- The yielded items of `segments` are the maximal equal-length runs, in
order, with one empty item interposed between consecutive runs. -/
theorem segments_spec (words : List Word) :
    WordList.segments words =
      List.intersperse [] ((lenRuns words).map (fun r => r.map some)) := by
  unfold WordList.segments
  have := segsFuel_B words words.length (2 * words.length) 0 (by omega) (by omega)
  rw [this, List.drop_zero]

theorem lenRuns_flatten (l : List Word) : (lenRuns l).flatten = l := by
  induction l using lenRuns.induct with
  | case1 => rw [lenRuns_nil]; rfl
  | case2 w ws ih =>
    rw [lenRuns_cons, List.flatten_cons, ih,
      List.takeWhile_append_dropWhile]

theorem lenRuns_run_props (l : List Word) :
    ∀ r ∈ lenRuns l, r ≠ [] ∧ ∃ L, ∀ a ∈ r, a.len = L := by
  induction l using lenRuns.induct with
  | case1 => rw [lenRuns_nil]; intro r hr; exact absurd hr (List.not_mem_nil r)
  | case2 w ws ih =>
    rw [lenRuns_cons]
    intro r hr
    rcases List.mem_cons.mp hr with hhead | htail
    · subst hhead
      constructor
      · rw [List.takeWhile_cons, if_pos (by rw [beq_iff_eq])]
        exact List.cons_ne_nil _ _
      · exact ⟨w.len, fun a ha => by simpa using List.mem_takeWhile_imp ha⟩
    · exact ih r htail

theorem lenRuns_chain (l : List Word) :
    (lenRuns l).Chain' (fun r s => ∀ a ∈ r, ∀ b ∈ s, a.len ≠ b.len) := by
  induction l using lenRuns.induct with
  | case1 => rw [lenRuns_nil]; exact List.chain'_nil
  | case2 w ws ih =>
    rw [lenRuns_cons]
    rw [List.chain'_cons']
    refine ⟨?_, ih⟩
    intro r' hr' a ha b hb
    -- every element of the first run has length `w.len`
    have haw : a.len = w.len := by simpa using List.mem_takeWhile_imp ha
    -- the next run lives inside the dropWhile part, whose head fails the predicate
    cases hdw : (w :: ws).dropWhile (fun v => v.len == w.len) with
    | nil => rw [hdw, lenRuns_nil] at hr'; exact absurd hr' (by simp)
    | cons x xs =>
      rw [hdw, lenRuns_cons] at hr'
      have hx : x.len ≠ w.len := by
        have hne : (w :: ws).dropWhile (fun v => v.len == w.len) ≠ [] := by
          rw [hdw]; exact List.cons_ne_nil _ _
        have hfail := List.head_dropWhile_not (fun v => v.len == w.len) (w :: ws) hne
        have hhead_eq : ((w :: ws).dropWhile (fun v => v.len == w.len)).head hne = x := by
          simp only [hdw, List.head_cons]
        rw [hhead_eq] at hfail
        simpa using hfail
      have hr'eq : r' = (x :: xs).takeWhile (fun v => v.len == x.len) := by
        rw [List.head?_cons, Option.mem_some_iff] at hr'
        exact hr'.symm
      have hbx : b.len = x.len := by
        rw [hr'eq] at hb
        simpa using List.mem_takeWhile_imp hb
      rw [haw, hbx]
      exact fun hc => hx hc.symm

/-! ### Unfolding equations for the per-segment loop -/

theorem segLoopFuel_congr :
    ∀ (n f1 f2 : Nat) (seg : List (Option Word)) (gs : List (List Byte × List Word)),
      seg.length ≤ n → seg.length < f1 → seg.length < f2 →
      segLoopFuel f1 seg gs = segLoopFuel f2 seg gs := by
  intro n
  induction n with
  | zero =>
    intro f1 f2 seg gs hn h1 h2
    obtain ⟨g1, rfl⟩ : ∃ g, f1 = g + 1 := ⟨f1 - 1, by omega⟩
    obtain ⟨g2, rfl⟩ : ∃ g, f2 = g + 1 := ⟨f2 - 1, by omega⟩
    have hnil : seg = [] := List.length_eq_zero.mp (by omega)
    subst hnil
    rfl
  | succ n ih =>
    intro f1 f2 seg gs hn h1 h2
    obtain ⟨g1, rfl⟩ : ∃ g, f1 = g + 1 := ⟨f1 - 1, by omega⟩
    obtain ⟨g2, rfl⟩ : ∃ g, f2 = g + 1 := ⟨f2 - 1, by omega⟩
    show (match popPivot seg with
      | none => some gs
      | some (word, s1) =>
        match scanAndMatch word s1.reverse with
        | none => none
        | some (_cndts, anagrams, rs) =>
          if anagrams.isEmpty then segLoopFuel g1 rs.reverse gs
          else segLoopFuel g1 ((rs.reverse).filter (fun o => o.isSome))
            (insertGroup gs word.string anagrams)) =
      (match popPivot seg with
      | none => some gs
      | some (word, s1) =>
        match scanAndMatch word s1.reverse with
        | none => none
        | some (_cndts, anagrams, rs) =>
          if anagrams.isEmpty then segLoopFuel g2 rs.reverse gs
          else segLoopFuel g2 ((rs.reverse).filter (fun o => o.isSome))
            (insertGroup gs word.string anagrams))
    cases hpop : popPivot seg with
    | none => rfl
    | some p =>
      obtain ⟨word, s1⟩ := p
      have hs1 := popPivot_length_lt hpop
      dsimp only
      cases hscan : scanAndMatch word s1.reverse with
      | none => rfl
      | some t =>
        obtain ⟨cndts, anagrams, rs⟩ := t
        dsimp only
        have hrs := scanAndMatch_length hscan
        rw [List.length_reverse] at hrs
        have hrr : rs.reverse.length = rs.length := List.length_reverse rs
        have hfl := List.length_filter_le (fun o => o.isSome) rs.reverse
        by_cases hana : anagrams.isEmpty
        · rw [if_pos hana, if_pos hana]
          exact ih g1 g2 rs.reverse gs (by omega) (by omega) (by omega)
        · rw [if_neg hana, if_neg hana]
          exact ih g1 g2 _ _ (by omega) (by omega) (by omega)

theorem segLoop_pop_none {seg : List (Option Word)} {gs : List (List Byte × List Word)}
    (h : popPivot seg = none) : segLoop seg gs = some gs := by
  rw [segLoop]
  show (match popPivot seg with
    | none => some gs
    | some (word, s1) =>
      match scanAndMatch word s1.reverse with
      | none => none
      | some (_cndts, anagrams, rs) =>
        if anagrams.isEmpty then segLoopFuel seg.length rs.reverse gs
        else segLoopFuel seg.length ((rs.reverse).filter (fun o => o.isSome))
          (insertGroup gs word.string anagrams)) = some gs
  rw [h]

theorem segLoop_scan_none {seg : List (Option Word)} {gs : List (List Byte × List Word)}
    {w : Word} {s1 : List (Option Word)} (h : popPivot seg = some (w, s1))
    (h2 : scanAndMatch w s1.reverse = none) : segLoop seg gs = none := by
  rw [segLoop]
  show (match popPivot seg with
    | none => some gs
    | some (word, s1) =>
      match scanAndMatch word s1.reverse with
      | none => none
      | some (_cndts, anagrams, rs) =>
        if anagrams.isEmpty then segLoopFuel seg.length rs.reverse gs
        else segLoopFuel seg.length ((rs.reverse).filter (fun o => o.isSome))
          (insertGroup gs word.string anagrams)) = none
  rw [h]
  dsimp only
  rw [h2]

theorem segLoop_step {seg : List (Option Word)} {gs : List (List Byte × List Word)}
    {w : Word} {s1 : List (Option Word)} {c a : List Word} {rs : List (Option Word)}
    (h : popPivot seg = some (w, s1)) (h2 : scanAndMatch w s1.reverse = some (c, a, rs)) :
    segLoop seg gs =
      if a.isEmpty then segLoop rs.reverse gs
      else segLoop ((rs.reverse).filter (fun o => o.isSome)) (insertGroup gs w.string a) := by
  have hs1 := popPivot_length_lt h
  have hrs := scanAndMatch_length h2
  rw [List.length_reverse] at hrs
  rw [segLoop]
  show (match popPivot seg with
    | none => some gs
    | some (word, s1) =>
      match scanAndMatch word s1.reverse with
      | none => none
      | some (_cndts, anagrams, rs) =>
        if anagrams.isEmpty then segLoopFuel seg.length rs.reverse gs
        else segLoopFuel seg.length ((rs.reverse).filter (fun o => o.isSome))
          (insertGroup gs word.string anagrams)) = _
  rw [h]
  dsimp only
  rw [h2]
  dsimp only
  have hrr : rs.reverse.length = rs.length := List.length_reverse rs
  have hfl := List.length_filter_le (fun o => o.isSome) rs.reverse
  by_cases hana : a.isEmpty
  · rw [if_pos hana, if_pos hana]
    unfold segLoop
    apply segLoopFuel_congr seg.length
    · omega
    · omega
    · omega
  · rw [if_neg hana, if_neg hana]
    unfold segLoop
    apply segLoopFuel_congr seg.length
    · omega
    · omega
    · omega

theorem popPivot_nil : popPivot ([] : List (Option Word)) = none := rfl

theorem segLoop_nil (gs : List (List Byte × List Word)) : segLoop [] gs = some gs :=
  segLoop_pop_none popPivot_nil

theorem segLoop_bind_nil (acc : Option (List (List Byte × List Word))) :
    acc.bind (fun gs => segLoop [] gs) = acc := by
  cases acc with
  | none => rfl
  | some gs => show segLoop [] gs = some gs; exact segLoop_nil gs

theorem foldl_segs_intersperse (rs : List (List Word)) :
    ∀ acc : Option (List (List Byte × List Word)),
      (List.intersperse [] (rs.map (fun r => r.map some))).foldl
          (fun acc seg => acc.bind (fun groups => segLoop seg groups)) acc
        = rs.foldl (fun acc r => acc.bind (fun groups => segLoop (r.map some) groups)) acc := by
  induction rs with
  | nil => intro acc; rfl
  | cons r rest ih =>
    intro acc
    cases rest with
    | nil => rfl
    | cons r2 rest2 =>
      rw [List.map_cons, List.map_cons, List.intersperse_cons_cons, List.foldl_cons,
        List.foldl_cons, segLoop_bind_nil, ← List.map_cons]
      rw [ih]
      rfl

/-- The grouping phase is a fold of the per-segment loop over the maximal
equal-length runs of the sorted vocabulary: the interposed empty segments
are no-ops. -/
theorem mainGroups_eq_fold_runs (raw_lines : List (List Byte)) :
    mainGroups raw_lines =
      (lenRuns (WordList.from_file raw_lines)).foldl
        (fun acc r => acc.bind (fun groups => segLoop (r.map some) groups)) (some []) := by
  unfold mainGroups
  rw [segments_spec, foldl_segs_intersperse]

/-! ### The pivot loop on segments with no removed slots -/

theorem popPivot_append_some (xs : List (Option Word)) (w : Word) :
    popPivot (xs ++ [some w]) = some (w, xs) := by
  induction xs with
  | nil => rfl
  | cons o rest ih =>
    rw [List.cons_append, popPivot, ih]

theorem exists_map_some {seg : List (Option Word)} (h : ∀ o ∈ seg, o.isSome) :
    ∃ S : List Word, seg = S.map some := by
  induction seg with
  | nil => exact ⟨[], rfl⟩
  | cons o rest ih =>
    obtain ⟨S, hS⟩ := ih (fun o ho => h o (List.mem_cons_of_mem _ ho))
    cases o with
    | none => exact absurd (h none (List.mem_cons_self _ _)) (by simp)
    | some v => exact ⟨v :: S, by rw [List.map_cons, hS]⟩

theorem scanAndMatch_map_some (w : Word) (ws : List Word) :
    scanAndMatch w (ws.map some) =
      some (ws.takeWhile (fun v => v.string_sum == w.string_sum),
        (ws.takeWhile (fun v => v.string_sum == w.string_sum)).filter (fun v => w.compare v),
        (ws.takeWhile (fun v => v.string_sum == w.string_sum)).map
            (fun v => if w.compare v then none else some v)
          ++ (ws.dropWhile (fun v => v.string_sum == w.string_sum)).map some) := by
  induction ws with
  | nil => rfl
  | cons c rest ih =>
    rw [List.map_cons, scanAndMatch]
    by_cases hsum : c.string_sum = w.string_sum
    · rw [if_pos hsum, ih]
      dsimp only
      have hp : (c.string_sum == w.string_sum) = true := by rw [beq_iff_eq]; exact hsum
      rw [List.takeWhile_cons, if_pos hp, List.dropWhile_cons, if_pos hp]
      by_cases hcmp : w.compare c
      · rw [if_pos hcmp, List.filter_cons, if_pos hcmp, List.map_cons, if_pos hcmp,
          List.cons_append]
      · rw [if_neg hcmp, List.filter_cons, if_neg hcmp, List.map_cons, if_neg hcmp,
          List.cons_append]
    · rw [if_neg hsum]
      have hp : (c.string_sum == w.string_sum) = false := by
        rw [beq_eq_false_iff_ne]; exact hsum
      rw [List.takeWhile_cons, if_neg (by rw [hp]; exact Bool.false_ne_true),
        List.dropWhile_cons, if_neg (by rw [hp]; exact Bool.false_ne_true)]
      rw [List.filter_nil, List.map_nil, List.nil_append, List.map_cons]

/-- One round of the per-segment loop on a segment with all slots present:
pop the pivot `w`, scan backwards for candidate slots with matching
checksum, extract the matching ones, and either continue unchanged or
record the group and compact.  The remaining words are expressed as a
plain word list again. -/
theorem segLoop_map_some_concat (w : Word) (S' : List Word)
    (gs : List (List Byte × List Word)) :
    segLoop ((S' ++ [w]).map some) gs =
      if ((S'.reverse.takeWhile (fun v => v.string_sum == w.string_sum)).filter
            (fun v => w.compare v)).isEmpty
      then segLoop (S'.map some) gs
      else
        segLoop
          (((S'.reverse.dropWhile (fun v => v.string_sum == w.string_sum)).reverse ++
              ((S'.reverse.takeWhile (fun v => v.string_sum == w.string_sum)).filter
                (fun v => !(w.compare v))).reverse).map some)
          (insertGroup gs w.string
            ((S'.reverse.takeWhile (fun v => v.string_sum == w.string_sum)).filter
              (fun v => w.compare v))) := by
  have hmap : (S' ++ [w]).map some = S'.map some ++ [some w] := by
    rw [List.map_append, List.map_cons, List.map_nil]
  have hpop : popPivot ((S' ++ [w]).map some) = some (w, S'.map some) := by
    rw [hmap, popPivot_append_some]
  have hrev : (S'.map some).reverse = S'.reverse.map some := by
    rw [List.reverse_map]
  set p : Word → Bool := fun v => v.string_sum == w.string_sum with hp
  set q : Word → Bool := fun v => w.compare v with hq
  set tw : List Word := S'.reverse.takeWhile p with htw
  set dw : List Word := S'.reverse.dropWhile p with hdw
  have hscan : scanAndMatch w (S'.map some).reverse =
      some (tw, tw.filter q,
        tw.map (fun v => if w.compare v then none else some v) ++ dw.map some) := by
    rw [hrev, scanAndMatch_map_some]
  rw [segLoop_step hpop hscan]
  by_cases hana : (tw.filter q).isEmpty
  · rw [if_pos hana, if_pos hana]
    have hnone : ∀ v ∈ tw, w.compare v = false := by
      intro v hv
      have := List.isEmpty_iff.mp hana
      rw [List.filter_eq_nil_iff] at this
      have hv2 := this v hv
      rw [hq] at hv2
      exact Bool.not_eq_true _ ▸ (by simpa using hv2)
    have hmap_eq : tw.map (fun v => if w.compare v then none else some v) = tw.map some := by
      apply List.map_congr_left
      intro v hv
      rw [hnone v hv]
      rfl
    have hseg_eq :
        (tw.map (fun v => if w.compare v then none else some v) ++ dw.map some).reverse
          = S'.map some := by
      rw [hmap_eq, ← List.map_append, htw, hdw, List.takeWhile_append_dropWhile,
        ← List.reverse_map, List.reverse_reverse]
    rw [hseg_eq]
  · rw [if_neg hana, if_neg hana]
    congr 1
    -- compacting drops exactly the matched slots
    rw [List.reverse_append, ← List.map_reverse, ← List.map_reverse, List.filter_append]
    have h1 : (dw.reverse.map some).filter (fun o => o.isSome) = dw.reverse.map some := by
      rw [List.filter_eq_self]
      intro o ho
      obtain ⟨v, -, rfl⟩ := List.mem_map.mp ho
      rfl
    have h2 : ((tw.reverse.map (fun v => if w.compare v then none else some v)).filter
          (fun o => o.isSome))
        = (tw.reverse.filter (fun v => !(w.compare v))).map some := by
      rw [List.filter_map]
      have hpred : List.filter ((fun o : Option Word => o.isSome) ∘
            (fun v => if w.compare v then none else some v)) tw.reverse
          = List.filter (fun v => !(w.compare v)) tw.reverse := by
        apply List.filter_congr
        intro v _
        by_cases hc : w.compare v
        · simp [hc]
        · simp [hc]
      rw [hpred]
      apply List.map_congr_left
      intro v hv
      have hc := (List.mem_filter.mp hv).2
      rw [Bool.not_eq_eq_eq_not, Bool.not_true] at hc
      simp [hc]
    rw [h1, h2, List.map_append, List.filter_reverse]

/-! ### Totality of the per-segment loop on all-present segments -/

theorem takeWhile_dropWhile_length (p : Word → Bool) (l : List Word) :
    (l.takeWhile p).length + (l.dropWhile p).length = l.length := by
  have h := congrArg List.length (List.takeWhile_append_dropWhile p l)
  rwa [List.length_append] at h

theorem segLoop_map_some_isSome (S : List Word) (gs : List (List Byte × List Word)) :
    (segLoop (S.map some) gs).isSome := by
  have H : ∀ n (S : List Word) gs, S.length ≤ n → (segLoop (S.map some) gs).isSome := by
    intro n
    induction n with
    | zero =>
      intro S gs hlen
      have hnil : S = [] := List.length_eq_zero.mp (by omega)
      subst hnil
      rw [List.map_nil, segLoop_nil]
      rfl
    | succ n ih =>
      intro S gs hlen
      rcases List.eq_nil_or_concat S with rfl | ⟨S', w, rfl⟩
      · rw [List.map_nil, segLoop_nil]; rfl
      · rw [List.concat_eq_append] at hlen ⊢
        rw [segLoop_map_some_concat]
        have hlen' : S'.length ≤ n := by
          rw [List.length_append, List.length_cons, List.length_nil] at hlen
          omega
        split
      
        · exact ih S' gs hlen'
        · apply ih
          have h1 := takeWhile_dropWhile_length (fun v => v.string_sum == w.string_sum) S'.reverse
          have h2 := List.length_filter_le (fun v => !(w.compare v))
            (S'.reverse.takeWhile (fun v => v.string_sum == w.string_sum))
          rw [List.length_append, List.length_reverse, List.length_reverse]
          rw [List.length_reverse] at h1
          omega
  exact H S.length S gs le_rfl

/-! ### Accounting of word occurrences in the group map -/

theorem groupUsage_nil : groupUsage [] = 0 := rfl

theorem groupUsage_cons (g : List Byte × List Word) (gs : List (List Byte × List Word)) :
    groupUsage (g :: gs) = ↑(g.1 :: g.2.map Word.string) + groupUsage gs := by
  unfold groupUsage
  rw [List.flatMap_cons, ← Multiset.coe_add]

theorem groupUsage_append (gs1 gs2 : List (List Byte × List Word)) :
    groupUsage (gs1 ++ gs2) = groupUsage gs1 + groupUsage gs2 := by
  unfold groupUsage
  rw [List.flatMap_append, ← Multiset.coe_add]

theorem groupUsage_single (k : List Byte) (v : List Word) :
    groupUsage [(k, v)] = ↑(k :: v.map Word.string) := by
  unfold groupUsage
  rw [List.flatMap_cons, List.flatMap_nil, List.append_nil]

theorem insertGroup_fresh {gs : List (List Byte × List Word)} {k : List Byte} (v : List Word)
    (h : ∀ p ∈ gs, p.1 ≠ k) : insertGroup gs k v = gs ++ [(k, v)] := by
  unfold insertGroup
  rw [if_neg]
  intro hany
  obtain ⟨p, hp, hpk⟩ := List.any_eq_true.mp hany
  exact h p hp (by simpa using hpk)

theorem groupUsage_insert_fresh {gs : List (List Byte × List Word)} {k : List Byte}
    (v : List Word) (h : ∀ p ∈ gs, p.1 ≠ k) :
    groupUsage (insertGroup gs k v) = groupUsage gs + ↑(k :: v.map Word.string) := by
  rw [insertGroup_fresh v h, groupUsage_append, groupUsage_single]

theorem groupUsage_map_replace_le (gs : List (List Byte × List Word)) (k : List Byte)
    (v : List Word) (hnd : (gs.map Prod.fst).Nodup) :
    groupUsage (gs.map (fun p => if p.1 == k then (k, v) else p)) ≤
      groupUsage gs + ↑(k :: v.map Word.string) := by
  induction gs with
  | nil => simp [groupUsage_nil]
  | cons g rest ih =>
    rw [List.map_cons, List.nodup_cons] at hnd
    obtain ⟨hg_notin, hnd'⟩ := hnd
    rw [List.map_cons, groupUsage_cons, groupUsage_cons]
    by_cases hgk : g.1 == k
    · have hk : g.1 = k := by simpa using hgk
      rw [if_pos hgk]
      have hrest_id : rest.map (fun p => if p.1 == k then (k, v) else p) = rest := by
        conv_rhs => rw [← List.map_id rest]
        apply List.map_congr_left
        intro p hp
        rw [if_neg]
        · rfl
        · intro hpk
          have hpk2 : p.1 = k := by simpa using hpk
          exact hg_notin (by rw [hk, ← hpk2]; exact List.mem_map_of_mem Prod.fst hp)
      rw [hrest_id]
      show (↑(k :: v.map Word.string) : Multiset (List Byte)) + groupUsage rest ≤
        ↑(g.1 :: g.2.map Word.string) + groupUsage rest + ↑(k :: v.map Word.string)
      calc (↑(k :: v.map Word.string) : Multiset (List Byte)) + groupUsage rest
          = groupUsage rest + ↑(k :: v.map Word.string) := add_comm _ _
        _ ≤ (↑(g.1 :: g.2.map Word.string) + groupUsage rest) + ↑(k :: v.map Word.string) := by
            apply add_le_add_right
            exact Multiset.le_add_left _ _
    · rw [if_neg hgk]
      have hle := ih hnd'
      calc (↑(g.1 :: g.2.map Word.string) : Multiset (List Byte)) +
            groupUsage (rest.map (fun p => if p.1 == k then (k, v) else p))
          ≤ ↑(g.1 :: g.2.map Word.string) + (groupUsage rest + ↑(k :: v.map Word.string)) :=
            add_le_add_left hle _
        _ = (↑(g.1 :: g.2.map Word.string) + groupUsage rest) + ↑(k :: v.map Word.string) := by
            rw [add_assoc]

theorem groupUsage_insert_le (gs : List (List Byte × List Word)) (k : List Byte)
    (v : List Word) (hnd : (gs.map Prod.fst).Nodup) :
    groupUsage (insertGroup gs k v) ≤ groupUsage gs + ↑(k :: v.map Word.string) := by
  unfold insertGroup
  split
  · exact groupUsage_map_replace_le gs k v hnd
  · rw [groupUsage_append, groupUsage_single]

theorem insertGroup_map_fst (gs : List (List Byte × List Word)) (k : List Byte)
    (v : List Word) :
    (insertGroup gs k v).map Prod.fst =
      if gs.any (fun p => p.1 == k) then gs.map Prod.fst else gs.map Prod.fst ++ [k] := by
  unfold insertGroup
  split
  next _h =>
    rw [List.map_map]
    apply List.map_congr_left
    intro p _
    by_cases hpk : p.1 == k
    · have : p.1 = k := by simpa using hpk
      rw [Function.comp_apply, if_pos hpk]
      exact this.symm
    · rw [Function.comp_apply, if_neg hpk]
  next _h =>
    rw [List.map_append]
    rfl

theorem insertGroup_keys_nodup {gs : List (List Byte × List Word)} {k : List Byte}
    (v : List Word) (hnd : (gs.map Prod.fst).Nodup) :
    ((insertGroup gs k v).map Prod.fst).Nodup := by
  rw [insertGroup_map_fst]
  split
  · exact hnd
  next h =>
    rw [List.nodup_append]
    refine ⟨hnd, List.nodup_singleton k, ?_⟩
    intro a ha hak
    rw [List.mem_singleton] at hak
    subst hak
    obtain ⟨p, hp, hpk⟩ := List.mem_map.mp ha
    exact h (List.any_eq_true.mpr ⟨p, hp, by simpa using hpk⟩)

theorem scan_strings_partition (w : Word) (S' : List Word) :
    (↑(((S'.reverse.takeWhile (fun v => v.string_sum == w.string_sum)).filter
        (fun v => w.compare v)).map Word.string) : Multiset (List Byte)) +
      ↑(((S'.reverse.dropWhile (fun v => v.string_sum == w.string_sum)).reverse ++
          ((S'.reverse.takeWhile (fun v => v.string_sum == w.string_sum)).filter
            (fun v => !(w.compare v))).reverse).map Word.string)
    = ↑(S'.map Word.string) := by
  set p : Word → Bool := fun v => v.string_sum == w.string_sum with hp
  set q : Word → Bool := fun v => w.compare v with hq
  set tw : List Word := S'.reverse.takeWhile p with htw
  set dw : List Word := S'.reverse.dropWhile p with hdw
  have hsplit2 : (↑(((dw.reverse ++ (tw.filter (fun v => !(q v))).reverse)).map Word.string)
      : Multiset (List Byte))
      = ↑(dw.map Word.string) + ↑((tw.filter (fun v => !(q v))).map Word.string) := by
    rw [List.map_append, ← Multiset.coe_add, List.map_reverse, List.map_reverse,
      Multiset.coe_reverse, Multiset.coe_reverse]
  rw [hsplit2]
  have hfilters : (↑((tw.filter q).map Word.string) : Multiset (List Byte)) +
      ↑((tw.filter (fun v => !(q v))).map Word.string) = ↑(tw.map Word.string) := by
    have hperm := (List.filter_append_perm q tw).map Word.string
    rw [List.map_append] at hperm
    rw [← Multiset.coe_eq_coe] at hperm
    rw [← Multiset.coe_add] at hperm
    exact hperm
  have htwdw : (↑(tw.map Word.string) : Multiset (List Byte)) + ↑(dw.map Word.string)
      = ↑(S'.map Word.string) := by
    have happ : tw ++ dw = S'.reverse := List.takeWhile_append_dropWhile p S'.reverse
    have := congrArg (fun l => (↑(List.map Word.string l) : Multiset (List Byte))) happ
    simp only [List.map_append] at this
    rw [← Multiset.coe_add] at this
    rw [this, List.map_reverse, Multiset.coe_reverse]
  calc (↑((tw.filter q).map Word.string) : Multiset (List Byte)) +
        (↑(dw.map Word.string) + ↑((tw.filter (fun v => !(q v))).map Word.string))
      = (↑((tw.filter q).map Word.string) + ↑((tw.filter (fun v => !(q v))).map Word.string))
          + ↑(dw.map Word.string) := by
        rw [add_comm (↑(dw.map Word.string) : Multiset (List Byte)) _, add_assoc]
    _ = ↑(tw.map Word.string) + ↑(dw.map Word.string) := by rw [hfilters]
    _ = ↑(S'.map Word.string) := htwdw

/-- Occurrence bound for the per-segment loop: the words added to the
group map are consumed from the segment, so the total usage is bounded by
the segment contents; the keys of the map stay pairwise distinct. -/
theorem segLoop_usage :
    ∀ (n : Nat) (S : List Word) (gs gs' : List (List Byte × List Word)),
      S.length ≤ n → (gs.map Prod.fst).Nodup →
      segLoop (S.map some) gs = some gs' →
      groupUsage gs' ≤ groupUsage gs + ↑(S.map Word.string) ∧ (gs'.map Prod.fst).Nodup := by
  intro n
  induction n with
  | zero =>
    intro S gs gs' hlen hnd h
    have hnil : S = [] := List.length_eq_zero.mp (by omega)
    subst hnil
    rw [List.map_nil, segLoop_nil] at h
    injection h with h
    subst h
    refine ⟨?_, hnd⟩
    rw [List.map_nil]
    exact Multiset.le_add_right _ _
  | succ n ih =>
    intro S gs gs' hlen hnd h
    rcases List.eq_nil_or_concat S with rfl | ⟨S', w, rfl⟩
    · rw [List.map_nil, segLoop_nil] at h
      injection h with h
      subst h
      refine ⟨?_, hnd⟩
      rw [List.map_nil]
      exact Multiset.le_add_right _ _
    · rw [List.concat_eq_append] at hlen h ⊢
      rw [segLoop_map_some_concat] at h
      have hlen' : S'.length ≤ n := by
        rw [List.length_append, List.length_cons, List.length_nil] at hlen
        omega
      have hSstr : (↑((S' ++ [w]).map Word.string) : Multiset (List Byte))
          = ↑(S'.map Word.string) + ↑([w.string] : List (List Byte)) := by
        rw [List.map_append, ← Multiset.coe_add]
        rfl
      split at h
      · -- no anagrams found: the pivot is dropped
        obtain ⟨hle, hnd'⟩ := ih S' gs gs' hlen' hnd h
        refine ⟨?_, hnd'⟩
        rw [hSstr, ← add_assoc]
        exact hle.trans (Multiset.le_add_right _ _)
      · -- a group is recorded and the matched slots are compacted away
        next hne =>
        set tw : List Word :=
          S'.reverse.takeWhile (fun v => v.string_sum == w.string_sum) with htw
        set dw : List Word :=
          S'.reverse.dropWhile (fun v => v.string_sum == w.string_sum) with hdw
        set ana : List Word := tw.filter (fun v => w.compare v) with hana
        set S2 : List Word := dw.reverse ++ (tw.filter (fun v => !(w.compare v))).reverse
          with hS2
        set gs2 : List (List Byte × List Word) := insertGroup gs w.string ana with hgs2
        have hS2len : S2.length ≤ n := by
          have h1 : tw.length + dw.length = S'.length := by
            rw [htw, hdw]
            have := takeWhile_dropWhile_length (fun v => v.string_sum == w.string_sum)
              S'.reverse
            rwa [List.length_reverse] at this
          have h2 := List.length_filter_le (fun v => !(w.compare v)) tw
          rw [hS2, List.length_append, List.length_reverse, List.length_reverse]
          omega
        have hnd2 : (gs2.map Prod.fst).Nodup := insertGroup_keys_nodup ana hnd
        obtain ⟨hle, hnd'⟩ := ih S2 gs2 gs' hS2len hnd2 h
        refine ⟨?_, hnd'⟩
        have hins : groupUsage gs2 ≤ groupUsage gs + ↑(w.string :: ana.map Word.string) :=
          groupUsage_insert_le gs w.string ana hnd
        have hpart : (↑(ana.map Word.string) : Multiset (List Byte)) + ↑(S2.map Word.string)
            = ↑(S'.map Word.string) := by
          rw [hana, hS2, htw, hdw]
          exact scan_strings_partition w S'
        calc groupUsage gs'
            ≤ groupUsage gs2 + ↑(S2.map Word.string) := hle
          _ ≤ (groupUsage gs + ↑(w.string :: ana.map Word.string)) + ↑(S2.map Word.string) :=
              add_le_add_right hins _
          _ = groupUsage gs + (↑(w.string :: ana.map Word.string) + ↑(S2.map Word.string)) := by
              rw [add_assoc]
          _ = groupUsage gs + ↑((S' ++ [w]).map Word.string) := by
              congr 1
              rw [hSstr]
              have hcons : (↑(w.string :: ana.map Word.string) : Multiset (List Byte))
                  = ↑(ana.map Word.string) + ↑([w.string] : List (List Byte)) := by
                rw [Multiset.coe_add]
                apply Multiset.coe_eq_coe.mpr
                exact (List.perm_append_singleton _ _).symm
              rw [hcons, add_right_comm, hpart]

/-! ### Sortedness of the vocabulary and of each segment -/

theorem sortLe_trans (a b c : List Byte) (h1 : sortLe a b) (h2 : sortLe b c) : sortLe a c := by
  simp only [sortLe] at h1 h2 ⊢
  split_ifs at h1 h2 ⊢ <;> simp only [decide_eq_true_eq] at h1 h2 ⊢ <;> omega

theorem sortLe_total (a b : List Byte) : sortLe a b || sortLe b a := by
  simp only [sortLe]
  split_ifs <;> simp only [Bool.or_eq_true, decide_eq_true_eq] <;> omega

theorem insertLine_perm (s : List Byte) :
    ∀ l : List (List Byte), (insertLine s l).Perm (s :: l) := by
  intro l
  induction l with
  | nil => exact List.Perm.refl _
  | cons t rest ih =>
    show (if sortLe s t then s :: t :: rest else t :: insertLine s rest).Perm _
    by_cases hst : sortLe s t
    · rw [if_pos hst]
    · rw [if_neg hst]
      exact (List.Perm.cons t ih).trans (List.Perm.swap s t rest)

theorem sortLines_perm : ∀ l : List (List Byte), (sortLines l).Perm l := by
  intro l
  induction l with
  | nil => exact List.Perm.refl _
  | cons s rest ih =>
    show (insertLine s (sortLines rest)).Perm _
    exact (insertLine_perm s (sortLines rest)).trans (List.Perm.cons s ih)

theorem insertLine_sorted (s : List Byte) :
    ∀ l : List (List Byte), l.Pairwise (fun a b => sortLe a b) →
      (insertLine s l).Pairwise (fun a b => sortLe a b) := by
  intro l
  induction l with
  | nil =>
    intro _
    exact List.pairwise_singleton _ s
  | cons t rest ih =>
    intro h
    obtain ⟨ht, hrest⟩ := List.pairwise_cons.mp h
    show (if sortLe s t then s :: t :: rest else t :: insertLine s rest).Pairwise _
    by_cases hst : sortLe s t
    · rw [if_pos hst]
      apply List.Pairwise.cons _ h
      intro b hb
      rcases List.mem_cons.mp hb with rfl | hbrest
      · exact hst
      · exact sortLe_trans s t b hst (ht b hbrest)
    · rw [if_neg hst]
      apply List.Pairwise.cons _ (ih hrest)
      intro b hb
      have hb2 : b ∈ s :: rest := (insertLine_perm s rest).subset hb
      rcases List.mem_cons.mp hb2 with rfl | hbrest
      · have htot := sortLe_total b t
        rw [Bool.or_eq_true] at htot
        rcases htot with h1 | h2
        · exact absurd h1 hst
        · exact h2
      · exact ht b hbrest

theorem sortLines_sorted : ∀ l : List (List Byte),
    (sortLines l).Pairwise (fun a b => sortLe a b) := by
  intro l
  induction l with
  | nil => exact List.Pairwise.nil
  | cons s rest ih =>
    show (insertLine s (sortLines rest)).Pairwise _
    exact insertLine_sorted s (sortLines rest) ih

theorem from_file_sorted (raw_lines : List (List Byte)) :
    (WordList.from_file raw_lines).Pairwise (fun a b => sortLe a.string b.string) := by
  unfold WordList.from_file
  rw [List.pairwise_map]
  exact sortLines_sorted raw_lines

theorem from_file_perm (raw_lines : List (List Byte)) :
    ((WordList.from_file raw_lines).map Word.string).Perm raw_lines := by
  unfold WordList.from_file
  rw [List.map_map]
  have hcomp : Word.string ∘ Word.new = id := by
    funext s
    rfl
  rw [hcomp, List.map_id]
  exact sortLines_perm raw_lines

theorem from_file_wf (raw_lines : List (List Byte)) :
    ∀ v ∈ WordList.from_file raw_lines, v = Word.new v.string := by
  unfold WordList.from_file
  intro v hv
  obtain ⟨s, -, rfl⟩ := List.mem_map.mp hv
  rfl

theorem lenRuns_pairwise_of_pairwise {R : Word → Word → Prop} :
    ∀ l : List Word, l.Pairwise R → ∀ r ∈ lenRuns l, r.Pairwise R := by
  intro l
  induction l using lenRuns.induct with
  | case1 => intro _ r hr; rw [lenRuns_nil] at hr; exact absurd hr (List.not_mem_nil r)
  | case2 w ws ih =>
    intro h r hr
    rw [lenRuns_cons] at hr
    rcases List.mem_cons.mp hr with rfl | htail
    · exact h.sublist (List.takeWhile_sublist _)
    · exact ih (h.sublist (List.dropWhile_sublist _)) r htail

theorem sortLe_len_le {a b : List Byte} (h : sortLe a b) : a.length ≤ b.length := by
  simp only [sortLe] at h
  split_ifs at h <;> simp only [decide_eq_true_eq] at h <;> omega

theorem sortLe_sum_le {a b : List Byte} (h : sortLe a b) (hlen : a.length = b.length) :
    Word._string_sum a ≤ Word._string_sum b := by
  simp only [sortLe] at h
  rw [if_pos hlen] at h
  simpa using h

/-- Every run of a sorted vocabulary is itself sorted by ascending checksum. -/
theorem lenRuns_sum_sorted (raw_lines : List (List Byte)) :
    ∀ r ∈ lenRuns (WordList.from_file raw_lines),
      r.Pairwise (fun a b => a.string_sum ≤ b.string_sum) := by
  intro r hr
  have hsorted := lenRuns_pairwise_of_pairwise _ (from_file_sorted raw_lines) r hr
  have hlen := (lenRuns_run_props _ r hr).2
  obtain ⟨L, hL⟩ := hlen
  have hwf : ∀ v ∈ r, v = Word.new v.string := by
    intro v hv
    have hmem : v ∈ WordList.from_file raw_lines := by
      have := lenRuns_flatten (WordList.from_file raw_lines)
      rw [← this]
      exact List.mem_flatten.mpr ⟨r, hr, hv⟩
    exact from_file_wf raw_lines v hmem
  apply hsorted.imp_of_mem
  intro a b ha hb hab
  have hlena : a.len = L := hL a ha
  have hlenb : b.len = L := hL b hb
  have hstr_len : a.string.length = b.string.length := by
    have h1 : a.len = a.string.length := rfl
    have h2 : b.len = b.string.length := rfl
    omega
  have hsum := sortLe_sum_le hab hstr_len
  have hwa := hwf a ha
  have hwb := hwf b hb
  have ha2 : a.string_sum = Word._string_sum a.string := by
    conv_lhs => rw [hwa]
    rfl
  have hb2 : b.string_sum = Word._string_sum b.string := by
    conv_lhs => rw [hwb]
    rfl
  rw [ha2, hb2]
  exact hsum

theorem lenRuns_len_lt_aux :
    ∀ v : List Word, v.Pairwise (fun a b => a.len ≤ b.len) →
      (lenRuns v).Pairwise (fun r s => ∀ a ∈ r, ∀ b ∈ s, a.len < b.len) := by
  intro v
  induction v using lenRuns.induct with
  | case1 => intro _; rw [lenRuns_nil]; exact List.Pairwise.nil
  | case2 w ws ih =>
    intro hsorted
    rw [lenRuns_cons]
    set p : Word → Bool := fun u => u.len == w.len with hp
    set tw : List Word := (w :: ws).takeWhile p with htw
    set dw : List Word := (w :: ws).dropWhile p with hdw
    apply List.Pairwise.cons
    · -- the first run is strictly below every later run
      intro s hs a ha b hb
      have hb_dw : b ∈ dw := by
        have hflat := lenRuns_flatten dw
        rw [← hflat]
        exact List.mem_flatten.mpr ⟨s, hs, hb⟩
      have ha_len : a.len = w.len := by
        have hpa := List.mem_takeWhile_imp ha
        rw [hp] at hpa
        simpa using hpa
      -- the head of `dw` has a different length, and lengths are ascending
      have hdw_pairwise : dw.Pairwise (fun a b => a.len ≤ b.len) :=
        hsorted.sublist (List.dropWhile_sublist p)
      have hcross : ∀ x ∈ tw, ∀ y ∈ dw, x.len ≤ y.len := by
        have happ : tw ++ dw = w :: ws := List.takeWhile_append_dropWhile p (w :: ws)
        have := hsorted
        rw [← happ] at this
        exact (List.pairwise_append.mp this).2.2
      cases hdwc : dw with
      | nil => rw [hdwc] at hb_dw; exact absurd hb_dw (List.not_mem_nil b)
      | cons x xs =>
        have hx_ne : x.len ≠ w.len := by
          have hne : dw ≠ [] := by rw [hdwc]; exact List.cons_ne_nil _ _
          have hfail : p (dw.head hne) = false := List.head_dropWhile_not p (w :: ws) hne
          have hhead : dw.head hne = x := by simp only [hdwc, List.head_cons]
          rw [hhead, hp] at hfail
          simpa using hfail
        have hw_mem_tw : w ∈ tw := by
          rw [htw, List.takeWhile_cons, if_pos (by rw [hp, beq_iff_eq])]
          exact List.mem_cons_self _ _
        have hwx : w.len ≤ x.len := hcross w hw_mem_tw x (by rw [hdwc]; exact List.mem_cons_self _ _)
        have hxb : x.len ≤ b.len := by
          rw [hdwc] at hb_dw hdw_pairwise
          rcases List.mem_cons.mp hb_dw with rfl | hbtail
          · exact le_refl _
          · exact (List.pairwise_cons.mp hdw_pairwise).1 b hbtail
        omega
    · exact ih (hsorted.sublist (List.dropWhile_sublist p))

/-- The runs of a sorted vocabulary have strictly increasing word lengths. -/
theorem lenRuns_len_lt (raw_lines : List (List Byte)) :
    (lenRuns (WordList.from_file raw_lines)).Pairwise
      (fun r s => ∀ a ∈ r, ∀ b ∈ s, a.len < b.len) := by
  apply lenRuns_len_lt_aux
  apply (from_file_sorted raw_lines).imp
  intro a b h
  exact sortLe_len_le h

/-- On a checksum-descending list bounded by `m`, the backward scan that
stops at the first differing checksum collects exactly the slots with
checksum `m`. -/
theorem takeWhile_eq_filter_of_desc (m : Int) :
    ∀ l : List Word, l.Pairwise (fun a b => b.string_sum ≤ a.string_sum) →
      (∀ v ∈ l, v.string_sum ≤ m) →
      l.takeWhile (fun v => v.string_sum == m) = l.filter (fun v => v.string_sum == m) := by
  intro l
  induction l with
  | nil => intro _ _; rfl
  | cons c rest ih =>
    intro hsort hbound
    obtain ⟨hhead, htail⟩ := List.pairwise_cons.mp hsort
    by_cases hc : c.string_sum = m
    · have hp : (c.string_sum == m) = true := by rw [beq_iff_eq]; exact hc
      rw [List.takeWhile_cons, if_pos hp, List.filter_cons, if_pos hp,
        ih htail (fun v hv => hbound v (List.mem_cons_of_mem _ hv))]
    · have hp : (c.string_sum == m) = false := by rw [beq_eq_false_iff_ne]; exact hc
      rw [List.takeWhile_cons, if_neg (by rw [hp]; exact Bool.false_ne_true),
        List.filter_cons, if_neg (by rw [hp]; exact Bool.false_ne_true)]
      have hrest : rest.filter (fun v => v.string_sum == m) = [] := by
        rw [List.filter_eq_nil_iff]
        intro v hv
        have h1 := hhead v hv
        have h2 := hbound c (List.mem_cons_self _ _)
        intro hvm
        have : v.string_sum = m := by simpa using hvm
        omega
      rw [hrest]

/-! ### Exactness of the candidate scan (claim C6) -/

theorem filterMap_id_map_some (S : List Word) :
    (S.map some).filterMap id = S := by
  induction S with
  | nil => rfl
  | cons v rest ih => rw [List.map_cons, List.filterMap_cons]; simpa using ih

theorem filterMap_id_filter_isSome (l : List (Option Word)) :
    (l.filter (fun o => o.isSome)).filterMap id = l.filterMap id := by
  induction l with
  | nil => rfl
  | cons o rest ih =>
    cases o with
    | none => rw [List.filter_cons]; simpa using ih
    | some v =>
      rw [List.filter_cons]
      simp only [Option.isSome_some, if_pos]
      rw [List.filterMap_cons, List.filterMap_cons]
      simpa using ih

theorem filterMap_id_map_ite (w : Word) (l : List Word) :
    (l.map (fun v => if w.compare v then none else some v)).filterMap id
      = l.filter (fun v => !(w.compare v)) := by
  induction l with
  | nil => rfl
  | cons v rest ih =>
    rw [List.map_cons]
    by_cases hc : w.compare v
    · rw [if_pos hc, List.filterMap_cons_none (by rfl), List.filter_cons, if_neg (by simp [hc])]
      exact ih
    · rw [if_neg hc, List.filterMap_cons_some (f := id) (b := v) (by rfl), List.filter_cons,
        if_pos (by simp [Bool.not_eq_true] at hc ⊢; exact hc)]
      rw [ih]

/-- Claim C6: on a segment whose still-present slots are sorted by
ascending checksum, popping a pivot leaves a sorted remainder; the
backward candidate scan (which stops at the first slot whose checksum
differs from the pivot's) collects exactly the still-present slots whose
checksum equals the pivot's; and the order is preserved both by the match
round itself and by the compaction of removed slots. -/
theorem C6_scan_exact (seg : List (Option Word)) (w : Word) (s1 : List (Option Word))
    (hsome : ∀ o ∈ seg, o.isSome) (hsort : sortedBySum seg)
    (hpop : popPivot seg = some (w, s1)) :
    ∃ cndts anas rs, scanAndMatch w s1.reverse = some (cndts, anas, rs) ∧
      cndts = ((s1.filterMap id).filter (fun v => v.string_sum == w.string_sum)).reverse ∧
      sortedBySum s1 ∧ sortedBySum rs.reverse ∧
      sortedBySum (rs.reverse.filter (fun o => o.isSome)) := by
  obtain ⟨S, rfl⟩ := exists_map_some hsome
  rcases List.eq_nil_or_concat S with rfl | ⟨S', w', rfl⟩
  · rw [List.map_nil, popPivot_nil] at hpop
    cases hpop
  · rw [List.concat_eq_append, List.map_append, List.map_cons, List.map_nil,
      popPivot_append_some] at hpop
    injection hpop with hpair
    injection hpair with hw hs1
    subst w'
    subst hs1
    unfold sortedBySum at hsort
    rw [filterMap_id_map_some, List.concat_eq_append] at hsort
    have hS' : S'.Pairwise (fun a b => a.string_sum ≤ b.string_sum) :=
      (List.pairwise_append.mp hsort).1
    have hbound : ∀ v ∈ S', v.string_sum ≤ w.string_sum := by
      intro v hv
      exact (List.pairwise_append.mp hsort).2.2 v hv w (List.mem_cons_self _ _)
    have hdesc : S'.reverse.Pairwise (fun a b => b.string_sum ≤ a.string_sum) := by
      rw [List.pairwise_reverse]
      exact hS'
    have hbound' : ∀ v ∈ S'.reverse, v.string_sum ≤ w.string_sum := by
      intro v hv
      exact hbound v (List.mem_reverse.mp hv)
    have htwf := takeWhile_eq_filter_of_desc w.string_sum S'.reverse hdesc hbound'
    have hrev : (S'.map some).reverse = S'.reverse.map some := by
      rw [List.reverse_map]
    set p : Word → Bool := fun v => v.string_sum == w.string_sum with hp
    set tw : List Word := S'.reverse.takeWhile p with htw
    set dw : List Word := S'.reverse.dropWhile p with hdw
    have hscan : scanAndMatch w (S'.map some).reverse =
        some (tw, tw.filter (fun v => w.compare v),
          tw.map (fun v => if w.compare v then none else some v) ++ dw.map some) := by
      rw [hrev, scanAndMatch_map_some]
    have hS'eq : dw.reverse ++ tw.reverse = S' := by
      have happ : tw ++ dw = S'.reverse := List.takeWhile_append_dropWhile p S'.reverse
      have := congrArg List.reverse happ
      rwa [List.reverse_append, List.reverse_reverse] at this
    have hwords : ((tw.map (fun v => if w.compare v then none else some v) ++
          dw.map some).reverse).filterMap id
        = dw.reverse ++ (tw.filter (fun v => !(w.compare v))).reverse := by
      rw [List.reverse_append, List.filterMap_append, ← List.map_reverse,
        ← List.map_reverse, filterMap_id_map_some, filterMap_id_map_ite, List.filter_reverse]
    have hsub : List.Sublist (dw.reverse ++ (tw.filter (fun v => !(w.compare v))).reverse) S' := by
      rw [← hS'eq]
      exact (List.Sublist.refl _).append (List.filter_sublist tw).reverse
    refine ⟨_, _, _, hscan, ?_, ?_, ?_, ?_⟩
    · rw [htwf, filterMap_id_map_some, List.filter_reverse]
    · unfold sortedBySum
      rw [filterMap_id_map_some]
      exact hS'
    · unfold sortedBySum
      rw [hwords]
      exact hS'.sublist hsub
    · unfold sortedBySum
      rw [filterMap_id_filter_isSome, hwords]
      exact hS'.sublist hsub

theorem C6_witness :
    ∃ cndts anas rs,
      scanAndMatch (Word.new [98]) ([some (Word.new [97])] : List (Option Word)).reverse
          = some (cndts, anas, rs) ∧
        cndts = ((([some (Word.new [97])] : List (Option Word)).filterMap id).filter
          (fun v => v.string_sum == (Word.new [98]).string_sum)).reverse ∧
        sortedBySum [some (Word.new [97])] ∧ sortedBySum rs.reverse ∧
        sortedBySum (rs.reverse.filter (fun o => o.isSome)) :=
  C6_scan_exact [some (Word.new [97]), some (Word.new [98])] (Word.new [98])
    [some (Word.new [97])] (by decide)
    (by unfold sortedBySum; decide) (by decide)

/-! ### Claim C10: the loop never hits a removed slot, so the unwraps never panic -/

theorem foldl_bind_none (rs : List (List (Option Word))) :
    rs.foldl (fun acc seg => acc.bind (fun gs => segLoop seg gs)) none = none := by
  induction rs with
  | nil => rfl
  | cons r rest ih => rw [List.foldl_cons, Option.none_bind]; exact ih

/-- Claim C10: a segment whose slots are all present is processed without
panicking — removed slots are created only inside a pivot round and are
compacted away in that same round — and hence the whole grouping phase
returns a result for every input vocabulary. -/
theorem C10_no_panic :
    (∀ seg : List (Option Word), (∀ o ∈ seg, o.isSome) →
        ∀ gs, (segLoop seg gs).isSome) ∧
      (∀ raw_lines : List (List Byte), (mainGroups raw_lines).isSome) := by
  constructor
  · intro seg hsome gs
    obtain ⟨S, rfl⟩ := exists_map_some hsome
    exact segLoop_map_some_isSome S gs
  · intro raw_lines
    rw [mainGroups_eq_fold_runs]
    have H : ∀ (rs : List (List Word)) (gs : List (List Byte × List Word)),
        ((rs.foldl (fun acc r => acc.bind (fun gs => segLoop (r.map some) gs)) (some gs))).isSome := by
      intro rs
      induction rs with
      | nil => intro gs; rfl
      | cons r rest ih =>
        intro gs
        rw [List.foldl_cons, Option.some_bind]
        have := segLoop_map_some_isSome r gs
        obtain ⟨gs1, hgs1⟩ := Option.isSome_iff_exists.mp this
        rw [hgs1]
        exact ih gs1
    exact H _ []

theorem C10_witness :
    (segLoop [some (Word.new [97])] []).isSome ∧ (mainGroups [[97]]).isSome :=
  ⟨C10_no_panic.1 [some (Word.new [97])] (by decide) [], C10_no_panic.2 [[97]]⟩

/-! ### Claim C7: groups never mix lengths -/

theorem insertGroup_pred (gs : List (List Byte × List Word)) (k : List Byte) (v : List Word)
    (P : List Byte × List Word → Prop) (hgs : ∀ g ∈ gs, P g) (hnew : P (k, v)) :
    ∀ g ∈ insertGroup gs k v, P g := by
  unfold insertGroup
  split
  · intro g hg
    obtain ⟨p, hp, hpg⟩ := List.mem_map.mp hg
    by_cases hpk : p.1 == k
    · rw [if_pos hpk] at hpg; rw [← hpg]; exact hnew
    · rw [if_neg hpk] at hpg; rw [← hpg]; exact hgs p hp
  · intro g hg
    rcases List.mem_append.mp hg with h1 | h2
    · exact hgs g h1
    · rw [List.mem_singleton] at h2; rw [h2]; exact hnew

theorem mem_of_mem_takeWhile_rev {v : Word} {p : Word → Bool} {l : List Word}
    (h : v ∈ l.reverse.takeWhile p) : v ∈ l := by
  have h1 : v ∈ l.reverse := (List.takeWhile_sublist p).subset h
  exact List.mem_reverse.mp h1

theorem segLoop_good_lengths :
    ∀ (n : Nat) (S : List Word) (gs gs' : List (List Byte × List Word)) (L : Nat),
      S.length ≤ n → (∀ v ∈ S, v.len = L) →
      (∀ g ∈ gs, ∀ m ∈ g.2, m.string.length = g.1.length) →
      segLoop (S.map some) gs = some gs' →
      ∀ g ∈ gs', ∀ m ∈ g.2, m.string.length = g.1.length := by
  intro n
  induction n with
  | zero =>
    intro S gs gs' L hlen hL hgs h
    have hnil : S = [] := List.length_eq_zero.mp (by omega)
    subst hnil
    rw [List.map_nil, segLoop_nil] at h
    injection h with h
    subst h
    exact hgs
  | succ n ih =>
    intro S gs gs' L hlen hL hgs h
    rcases List.eq_nil_or_concat S with rfl | ⟨S', w, rfl⟩
    · rw [List.map_nil, segLoop_nil] at h
      injection h with h
      subst h
      exact hgs
    · rw [List.concat_eq_append] at hlen hL h
      rw [segLoop_map_some_concat] at h
      have hlen' : S'.length ≤ n := by
        rw [List.length_append, List.length_cons, List.length_nil] at hlen
        omega
      have hL' : ∀ v ∈ S', v.len = L := fun v hv => hL v (List.mem_append_left _ hv)
      have hLw : w.len = L := hL w (List.mem_append_right _ (List.mem_cons_self _ _))
      split at h
      · exact ih S' gs gs' L hlen' hL' hgs h
      · set tw : List Word :=
          S'.reverse.takeWhile (fun v => v.string_sum == w.string_sum) with htw
        set ana : List Word := tw.filter (fun v => w.compare v) with hana
        have hS2len : (S'.reverse.dropWhile (fun v => v.string_sum == w.string_sum)).reverse.length
            + (tw.filter (fun v => !(w.compare v))).reverse.length ≤ n := by
          have h1 : tw.length +
              (S'.reverse.dropWhile (fun v => v.string_sum == w.string_sum)).length
              = S'.length := by
            rw [htw]
            have := takeWhile_dropWhile_length (fun v => v.string_sum == w.string_sum) S'.reverse
            rwa [List.length_reverse] at this
          have h2 := List.length_filter_le (fun v => !(w.compare v)) tw
          rw [List.length_reverse, List.length_reverse]
          omega
        apply ih ((S'.reverse.dropWhile (fun v => v.string_sum == w.string_sum)).reverse ++
          (tw.filter (fun v => !(w.compare v))).reverse) _ gs' L
          (by rw [List.length_append]; exact hS2len) _ _ h
        · intro v hv
          rcases List.mem_append.mp hv with h1 | h2
          · apply hL'
            exact List.mem_reverse.mp ((List.dropWhile_sublist _).subset (List.mem_reverse.mp h1))
          · apply hL'
            have hvtw : v ∈ tw := (List.filter_sublist _).subset (List.mem_reverse.mp h2)
            exact mem_of_mem_takeWhile_rev hvtw
        · apply insertGroup_pred _ _ _ _ hgs
          intro m hm
          show m.string.length = w.string.length
          have hmtw : m ∈ tw := (List.filter_sublist _).subset hm
          have hmS : m ∈ S' := mem_of_mem_takeWhile_rev hmtw
          have h1 : m.string.length = m.len := rfl
          have h2 : w.string.length = w.len := rfl
          have h3 : m.len = L := hL' m hmS
          omega

/-- Claim C7: in the final mapping, every member of a group has the same
byte length as the group's key word. -/
theorem C7_groups_one_length (raw_lines : List (List Byte))
    (gs : List (List Byte × List Word)) (h : mainGroups raw_lines = some gs) :
    ∀ g ∈ gs, ∀ m ∈ g.2, m.string.length = g.1.length := by
  rw [mainGroups_eq_fold_runs] at h
  have hruns := lenRuns_run_props (WordList.from_file raw_lines)
  have H : ∀ (rs : List (List Word)) (gs0 gs1 : List (List Byte × List Word)),
      (∀ r ∈ rs, ∃ L, ∀ v ∈ r, v.len = L) →
      (∀ g ∈ gs0, ∀ m ∈ g.2, m.string.length = g.1.length) →
      rs.foldl (fun acc r => acc.bind (fun gs => segLoop (r.map some) gs)) (some gs0)
        = some gs1 →
      ∀ g ∈ gs1, ∀ m ∈ g.2, m.string.length = g.1.length := by
    intro rs
    induction rs with
    | nil =>
      intro gs0 gs1 _ hgs0 hfold
      rw [List.foldl_nil] at hfold
      injection hfold with hfold
      subst hfold
      exact hgs0
    | cons r rest ih =>
      intro gs0 gs1 hr hgs0 hfold
      rw [List.foldl_cons, Option.some_bind] at hfold
      obtain ⟨gsm, hgsm⟩ := Option.isSome_iff_exists.mp (segLoop_map_some_isSome r gs0)
      rw [hgsm] at hfold
      obtain ⟨L, hL⟩ := hr r (List.mem_cons_self _ _)
      have hmid := segLoop_good_lengths r.length r gs0 gsm L le_rfl hL hgs0 hgsm
      exact ih gsm gs1 (fun s hs => hr s (List.mem_cons_of_mem _ hs)) hmid hfold
  exact H _ [] gs (fun r hr => (hruns r hr).2) (fun g hg => absurd hg (List.not_mem_nil g)) h

theorem C7_witness :
    (Word.new [97, 98]).string.length = ([98, 97] : List Byte).length := by
  have h := C7_groups_one_length [[97, 98], [98, 97]]
    [([98, 97], [Word.new [97, 98]])] (by decide)
  exact h ([98, 97], [Word.new [97, 98]]) (by decide) (Word.new [97, 98]) (by decide)

/-! ### Claim C3: the yielded segments -/

/-- Claim C3, counterexample: on the sorted two-word vocabulary
`["a", "bb"]` the iterator also yields an empty item (between the two
runs), because `next` reads the run length at the stale index before
moving the cursor; so the yielded items are not exactly the maximal runs. -/
theorem C3_counterexample :
    [] ∈ WordList.segments (WordList.from_file [[97], [98, 98]]) ∧
      WordList.from_file [[97], [98, 98]] ≠ [] := by
  exact ⟨by decide, by decide⟩

/-- Claim C3 (corrected): the yielded items are the maximal contiguous
equal-length runs, in order, except that one empty item is yielded
between each pair of consecutive runs; every run is non-empty, the runs
concatenate back to the vocabulary, and adjacent runs have different
word lengths (maximality). -/
theorem C3_segments_runs (words : List Word) :
    WordList.segments words
        = List.intersperse [] ((lenRuns words).map (fun r => r.map some)) ∧
      (lenRuns words).flatten = words ∧
      (∀ r ∈ lenRuns words, r ≠ [] ∧ ∃ L, ∀ a ∈ r, a.len = L) ∧
      (lenRuns words).Chain' (fun r s => ∀ a ∈ r, ∀ b ∈ s, a.len ≠ b.len) :=
  ⟨segments_spec words, lenRuns_flatten words, lenRuns_run_props words, lenRuns_chain words⟩

theorem C3_witness :
    [Word.new [97]] ≠ [] ∧ (∃ L, ∀ a ∈ [Word.new [97]], a.len = L) := by
  have hruns : lenRuns [Word.new [97]] = [[Word.new [97]]] := by
    rw [lenRuns_cons]
    have h1 : ([Word.new [97]] : List Word).dropWhile
        (fun v => v.len == (Word.new [97]).len) = [] := by decide
    have h2 : ([Word.new [97]] : List Word).takeWhile
        (fun v => v.len == (Word.new [97]).len) = [Word.new [97]] := by decide
    rw [h1, h2, lenRuns_nil]
  exact (C3_segments_runs [Word.new [97]]).2.2.1 [Word.new [97]]
    (by rw [hruns]; exact List.mem_singleton.mpr rfl)

/-! ### Claims C8 and C9: the concrete scenarios -/

/-- Claim C8: on the vocabulary eat, tea, ate, bat, tab, cat the program
produces exactly two groups, one holding exactly the multiset
eat, tea, ate (one of them as key) and one holding exactly bat, tab;
cat appears in no group. -/
theorem C8_scenario_a :
    ∃ gs, mainGroups [eatL, teaL, ateL, batL, tabL, catL] = some gs ∧
      gs.length = 2 ∧
      (∃ g ∈ gs, (↑(g.1 :: g.2.map Word.string) : Multiset (List Byte)) = {eatL, teaL, ateL}) ∧
      (∃ g ∈ gs, (↑(g.1 :: g.2.map Word.string) : Multiset (List Byte)) = {batL, tabL}) ∧
      catL ∉ groupUsage gs := by
  refine ⟨[(ateL, [Word.new teaL, Word.new eatL]), (tabL, [Word.new batL])],
    by decide, by decide, ?_, ?_, by decide⟩
  · exact ⟨(ateL, [Word.new teaL, Word.new eatL]), by decide, by decide⟩
  · exact ⟨(tabL, [Word.new batL]), by decide, by decide⟩

/-- Claim C9: on the vocabulary ab, ba, ab with a duplicate text, exactly
one group is produced and it contains all three word occurrences, one as
key and the other two as members. -/
theorem C9_scenario_d :
    ∃ gs, mainGroups [abL, baL, abL] = some gs ∧ gs.length = 1 ∧
      groupUsage gs = ↑([abL, baL, abL] : List (List Byte)) := by
  exact ⟨[(abL, [Word.new baL, Word.new abL])], by decide, by decide, by decide⟩

/-! ### Claim C4: completeness of the grouping -/

theorem sum_cexA : Word._string_sum cexA = 512 := by
  rw [string_sum_spec]
  have hA : ((cexA.map Fin.val).sum : Int) = 512 := by
    rw [cexA]; simp [List.map_replicate, List.sum_replicate]
  rw [hA]
  rfl

theorem sum_cexB : Word._string_sum cexB = 512 := by
  rw [string_sum_spec]
  have hB : ((cexB.map Fin.val).sum : Int) = 512 := by
    rw [cexB]; simp [List.map_replicate, List.sum_replicate]
  rw [hB]
  rfl

theorem tbl_cex : Word._char_tbl cexB = Word._char_tbl cexA := by
  apply tbl_ext (char_tbl_length cexB) (char_tbl_length cexA)
  intro x
  rw [char_tbl_getD, char_tbl_getD, count_cexA, count_cexB]
  split_ifs <;> simp_all <;> rfl

theorem compare_cex : (Word.new cexB).compare (Word.new cexA) = true := by
  rw [compare_eq_true_iff (char_tbl_length cexB) (char_tbl_length cexA)]
  constructor
  · show Word._string_sum cexB = Word._string_sum cexA
    rw [sum_cexA, sum_cexB]
  · exact tbl_cex

theorem len_cexA : cexA.length = 512 := by rw [cexA]; simp

theorem len_cexB : cexB.length = 512 := by rw [cexB]; simp

theorem sortLe_cex : sortLe cexA cexB = true := by
  simp only [sortLe]
  rw [if_pos (by rw [len_cexA, len_cexB]), sum_cexA, sum_cexB]
  rfl

theorem from_file_cex : WordList.from_file [cexA, cexB] = [Word.new cexA, Word.new cexB] := by
  unfold WordList.from_file
  have hins : insertLine cexA [cexB] = [cexA, cexB] := by
    show (if sortLe cexA cexB then cexA :: cexB :: [] else cexB :: insertLine cexA []) = _
    rw [sortLe_cex]
    rfl
  show (insertLine cexA (insertLine cexB (sortLines []))).map Word.new = _
  rw [show sortLines [] = [] from rfl]
  rw [show insertLine cexB [] = [cexB] from rfl, hins]
  rfl

theorem lenRuns_cex :
    lenRuns [Word.new cexA, Word.new cexB] = [[Word.new cexA, Word.new cexB]] := by
  rw [lenRuns_cons]
  have hlen_eq : ((Word.new cexB).len == (Word.new cexA).len) = true := by
    show (cexB.length == cexA.length) = true
    rw [len_cexA, len_cexB]
    rfl
  have htk : ([Word.new cexA, Word.new cexB] : List Word).takeWhile
      (fun v => v.len == (Word.new cexA).len) = [Word.new cexA, Word.new cexB] := by
    rw [List.takeWhile_cons, if_pos (by rw [beq_iff_eq]), List.takeWhile_cons,
      if_pos hlen_eq, List.takeWhile_nil]
  have hdr : ([Word.new cexA, Word.new cexB] : List Word).dropWhile
      (fun v => v.len == (Word.new cexA).len) = [] := by
    rw [List.dropWhile_cons, if_pos (by rw [beq_iff_eq]), List.dropWhile_cons,
      if_pos hlen_eq, List.dropWhile_nil]
  rw [htk, hdr, lenRuns_nil]

/-- Claim C4, counterexample: in the vocabulary consisting of the two
equal-length texts `cexA` and `cexB`, neither word has an anagram partner
(their byte multisets differ), yet the program groups them together,
because their wrapped histograms and checksums coincide. -/
theorem C4_counterexample :
    mainGroups [cexA, cexB] = some [(cexB, [Word.new cexA])] ∧ ¬ cexA.Perm cexB := by
  constructor
  · rw [mainGroups_eq_fold_runs, from_file_cex, lenRuns_cex]
    simp only [List.foldl_cons, List.foldl_nil, Option.some_bind]
    rw [show ([Word.new cexA, Word.new cexB] : List Word)
      = [Word.new cexA] ++ [Word.new cexB] from rfl]
    rw [segLoop_map_some_concat]
    have hsum_eq : ((Word.new cexA).string_sum == (Word.new cexB).string_sum) = true := by
      show (Word._string_sum cexA == Word._string_sum cexB) = true
      rw [sum_cexA, sum_cexB]
      rfl
    have htw : ([Word.new cexA] : List Word).reverse.takeWhile
        (fun v => v.string_sum == (Word.new cexB).string_sum) = [Word.new cexA] := by
      rw [show ([Word.new cexA] : List Word).reverse = [Word.new cexA] from rfl,
        List.takeWhile_cons, if_pos hsum_eq, List.takeWhile_nil]
    have hdw : ([Word.new cexA] : List Word).reverse.dropWhile
        (fun v => v.string_sum == (Word.new cexB).string_sum) = [] := by
      rw [show ([Word.new cexA] : List Word).reverse = [Word.new cexA] from rfl,
        List.dropWhile_cons, if_pos hsum_eq, List.dropWhile_nil]
    rw [htw, hdw]
    have hana : ([Word.new cexA] : List Word).filter
        (fun v => (Word.new cexB).compare v) = [Word.new cexA] := by
      rw [List.filter_cons, if_pos compare_cex, List.filter_nil]
    have hanti : ([Word.new cexA] : List Word).filter
        (fun v => !((Word.new cexB).compare v)) = [] := by
      rw [List.filter_cons, if_neg (by rw [compare_cex]; simp), List.filter_nil]
    rw [hana, hanti]
    rw [if_neg (by simp)]
    show segLoop [] (insertGroup [] (Word.new cexB).string [Word.new cexA])
      = some [(cexB, [Word.new cexA])]
    rw [segLoop_nil]
    rfl
  · intro h
    have hc := h.count_eq 1
    rw [count_cexA, count_cexB] at hc
    simp at hc

theorem pairedMS_zero : pairedMS 0 = 0 := rfl

theorem countP_perm_zero {M : Multiset (List Byte)} {s0 : List Byte}
    (hM : ∀ t ∈ M, ¬ t.Perm s0) (s : List Byte) (hs : s.Perm s0) :
    M.countP (fun t => t.Perm s) = 0 := by
  rw [Multiset.countP_eq_zero]
  intro t ht hperm
  exact hM t ht (hperm.trans hs)

/-- Adding a whole permutation class of size at least two to a multiset
with no members of that class marks exactly the class as paired. -/
theorem pairedMS_add_class (M C : Multiset (List Byte)) (s0 : List Byte)
    (hC : ∀ s ∈ C, s.Perm s0) (hM : ∀ t ∈ M, ¬ t.Perm s0)
    (hcard : 2 ≤ Multiset.card C) :
    pairedMS (M + C) = C + pairedMS M := by
  unfold pairedMS
  rw [Multiset.filter_add]
  have hMpart : M.filter (fun s => 2 ≤ (M + C).countP (fun t => t.Perm s))
      = M.filter (fun s => 2 ≤ M.countP (fun t => t.Perm s)) := by
    apply Multiset.filter_congr
    intro t ht
    have hCzero : C.countP (fun u => u.Perm t) = 0 := by
      rw [Multiset.countP_eq_zero]
      intro c hc hperm
      exact hM t ht (hperm.symm.trans (hC c hc))
    rw [Multiset.countP_add, hCzero, add_zero]
  have hCpart : C.filter (fun s => 2 ≤ (M + C).countP (fun t => t.Perm s)) = C := by
    rw [Multiset.filter_eq_self]
    intro s hs
    have hCfull : C.countP (fun t => t.Perm s) = Multiset.card C := by
      rw [Multiset.countP_eq_card]
      intro c hc
      exact (hC c hc).trans (hC s hs).symm
    rw [Multiset.countP_add, countP_perm_zero hM s (hC s hs), hCfull, zero_add]
    exact hcard
  rw [hMpart, hCpart, add_comm]

/-- Adding a single text with no permutation partners does not change the
paired part. -/
theorem pairedMS_add_single (M : Multiset (List Byte)) (s0 : List Byte)
    (hM : ∀ t ∈ M, ¬ t.Perm s0) : pairedMS (M + {s0}) = pairedMS M := by
  unfold pairedMS
  rw [Multiset.filter_add]
  have hs0 : Multiset.filter (fun s => 2 ≤ (M + {s0}).countP (fun t => t.Perm s))
      ({s0} : Multiset (List Byte)) = 0 := by
    have hneg : ¬ (2 ≤ (M + {s0}).countP (fun t => t.Perm s0)) := by
      intro hcond
      rw [Multiset.countP_add, countP_perm_zero hM s0 (List.Perm.refl s0)] at hcond
      have h1 : ({s0} : Multiset (List Byte)).countP (fun t => t.Perm s0) ≤ 1 := by
        have := Multiset.countP_le_card (fun t => t.Perm s0) ({s0} : Multiset (List Byte))
        simpa using this
      omega
    rw [Multiset.filter_singleton, if_neg hneg]
    rfl
  have hMpart : M.filter (fun s => 2 ≤ (M + {s0}).countP (fun t => t.Perm s))
      = M.filter (fun s => 2 ≤ M.countP (fun t => t.Perm s)) := by
    apply Multiset.filter_congr
    intro t ht
    have hz : ({s0} : Multiset (List Byte)).countP (fun u => u.Perm t) = 0 := by
      rw [Multiset.countP_eq_zero]
      intro c hc hperm
      rw [Multiset.mem_singleton] at hc
      subst hc
      exact hM t ht hperm.symm
    rw [Multiset.countP_add, hz, add_zero]
  rw [hMpart, hs0, add_zero]

/-- Classes that do not cross the two summands make the paired part
additive. -/
theorem pairedMS_add_disjoint (A B : Multiset (List Byte))
    (h : ∀ a ∈ A, ∀ b ∈ B, ¬ a.Perm b) :
    pairedMS (A + B) = pairedMS A + pairedMS B := by
  unfold pairedMS
  rw [Multiset.filter_add]
  have hA : A.filter (fun s => 2 ≤ (A + B).countP (fun t => t.Perm s))
      = A.filter (fun s => 2 ≤ A.countP (fun t => t.Perm s)) := by
    apply Multiset.filter_congr
    intro a ha
    have hz : B.countP (fun u => u.Perm a) = 0 := by
      rw [Multiset.countP_eq_zero]
      intro b hb hperm
      exact h a ha b hb hperm.symm
    rw [Multiset.countP_add, hz, add_zero]
  have hB : B.filter (fun s => 2 ≤ (A + B).countP (fun t => t.Perm s))
      = B.filter (fun s => 2 ≤ B.countP (fun t => t.Perm s)) := by
    apply Multiset.filter_congr
    intro b hb
    have hz : A.countP (fun u => u.Perm b) = 0 := by
      rw [Multiset.countP_eq_zero]
      intro a ha hperm
      exact h a ha b hb hperm
    rw [Multiset.countP_add, hz, zero_add]
  rw [hA, hB]

theorem mem_multiset_list_sum {x : List Byte} :
    ∀ {As : List (Multiset (List Byte))}, x ∈ As.sum → ∃ A ∈ As, x ∈ A := by
  intro As
  induction As with
  | nil => intro hx; rw [List.sum_nil] at hx; exact absurd hx (by simp)
  | cons A rest ih =>
    intro hx
    rw [List.sum_cons] at hx
    rcases Multiset.mem_add.mp hx with h1 | h2
    · exact ⟨A, List.mem_cons_self _ _, h1⟩
    · obtain ⟨B, hB, hxB⟩ := ih h2
      exact ⟨B, List.mem_cons_of_mem _ hB, hxB⟩

theorem pairedMS_list_sum :
    ∀ As : List (Multiset (List Byte)),
      As.Pairwise (fun A B => ∀ a ∈ A, ∀ b ∈ B, ¬ a.Perm b) →
      pairedMS As.sum = (As.map pairedMS).sum := by
  intro As
  induction As with
  | nil => intro _; rw [List.sum_nil, List.map_nil, List.sum_nil, pairedMS_zero]
  | cons A rest ih =>
    intro h
    obtain ⟨hhead, htail⟩ := List.pairwise_cons.mp h
    rw [List.sum_cons, List.map_cons, List.sum_cons]
    rw [pairedMS_add_disjoint A rest.sum (fun a ha b hb => by
      obtain ⟨B, hB, hbB⟩ := mem_multiset_list_sum hb
      exact hhead B hB a ha b hbB), ih htail]

theorem dropWhile_eq_filter_not {p : Word → Bool} :
    ∀ l : List Word, l.takeWhile p = l.filter p →
      l.dropWhile p = l.filter (fun a => !(p a)) := by
  intro l
  induction l with
  | nil => intro _; rfl
  | cons c rest ih =>
    intro h
    by_cases hc : p c
    · rw [List.takeWhile_cons, if_pos hc, List.filter_cons, if_pos hc] at h
      have h2 : rest.takeWhile p = rest.filter p := by
        injection h
      rw [List.dropWhile_cons, if_pos hc, List.filter_cons, if_neg (by simp [hc]), ih h2]
    · have hcf : p c = false := Bool.not_eq_true _ ▸ (by simpa using hc)
      rw [List.takeWhile_cons, if_neg (by simp [hcf]), List.filter_cons,
        if_neg (by simp [hcf])] at h
      have hrest : rest.filter p = [] := h.symm
      have hall : ∀ x ∈ rest, ¬ p x := by
        rw [← List.filter_eq_nil_iff]
        exact hrest
      rw [List.dropWhile_cons, if_neg (by simp [hcf]), List.filter_cons,
        if_pos (by simp [hcf])]
      congr 1
      rw [eq_comm, List.filter_eq_self]
      intro a ha
      simp [hall a ha]

theorem compare_wf_iff {w v : Word} (hw : w = Word.new w.string) (hv : v = Word.new v.string)
    (hws : w.string.length < 256) (hvs : v.string.length < 256) :
    (w.compare v = true) ↔ w.string.Perm v.string := by
  conv_lhs => rw [hw, hv]
  exact compare_new_iff hws hvs

theorem string_sum_of_wf {v : Word} (hv : v = Word.new v.string) :
    v.string_sum = Word._string_sum v.string := by
  conv_lhs => rw [hv]
  rfl

/-- Completeness of the per-segment loop: on a checksum-sorted segment of
well-formed short words, and a group map whose keys avoid the segment,
the loop adds to the map exactly the words whose permutation class in the
segment has two or more occurrences. -/
theorem segLoop_complete :
    ∀ (n : Nat) (S : List Word) (gs gs' : List (List Byte × List Word)),
      S.length ≤ n →
      (∀ v ∈ S, v = Word.new v.string) →
      (∀ v ∈ S, v.string.length < 256) →
      S.Pairwise (fun a b => a.string_sum ≤ b.string_sum) →
      (∀ p ∈ gs, ∀ v ∈ S, p.1 ≠ v.string) →
      (gs.map Prod.fst).Nodup →
      segLoop (S.map some) gs = some gs' →
      groupUsage gs' = groupUsage gs + pairedMS ↑(S.map Word.string) ∧
        (gs'.map Prod.fst).Nodup ∧
        (∀ p ∈ gs', p ∈ gs ∨ ∃ v ∈ S, p.1 = v.string) := by
  intro n
  induction n with
  | zero =>
    intro S gs gs' hlen _ _ _ _ hnd h
    have hnil : S = [] := List.length_eq_zero.mp (by omega)
    subst hnil
    rw [List.map_nil, segLoop_nil] at h
    injection h with h
    subst h
    refine ⟨?_, hnd, fun p hp => Or.inl hp⟩
    rw [List.map_nil,
      show (↑([] : List (List Byte)) : Multiset (List Byte)) = 0 from rfl, pairedMS_zero,
      add_zero]
  | succ n ih =>
    intro S gs gs' hlen hwf hshort hsort hfresh hnd h
    rcases List.eq_nil_or_concat S with rfl | ⟨S', w, rfl⟩
    · rw [List.map_nil, segLoop_nil] at h
      injection h with h
      subst h
      refine ⟨?_, hnd, fun p hp => Or.inl hp⟩
      rw [List.map_nil,
        show (↑([] : List (List Byte)) : Multiset (List Byte)) = 0 from rfl, pairedMS_zero,
        add_zero]
    · rw [List.concat_eq_append] at hlen hwf hshort hsort hfresh h ⊢
      rw [segLoop_map_some_concat] at h
      have hlen' : S'.length ≤ n := by
        rw [List.length_append, List.length_cons, List.length_nil] at hlen
        omega
      have hwf' : ∀ v ∈ S', v = Word.new v.string :=
        fun v hv => hwf v (List.mem_append_left _ hv)
      have hwfw : w = Word.new w.string :=
        hwf w (List.mem_append_right _ (List.mem_cons_self _ _))
      have hshort' : ∀ v ∈ S', v.string.length < 256 :=
        fun v hv => hshort v (List.mem_append_left _ hv)
      have hshortw : w.string.length < 256 :=
        hshort w (List.mem_append_right _ (List.mem_cons_self _ _))
      have hS' : S'.Pairwise (fun a b => a.string_sum ≤ b.string_sum) :=
        (List.pairwise_append.mp hsort).1
      have hbound : ∀ v ∈ S', v.string_sum ≤ w.string_sum := by
        intro v hv
        exact (List.pairwise_append.mp hsort).2.2 v hv w (List.mem_cons_self _ _)
      have hfresh' : ∀ p ∈ gs, ∀ v ∈ S', p.1 ≠ v.string :=
        fun p hp v hv => hfresh p hp v (List.mem_append_left _ hv)
      set p : Word → Bool := fun v => v.string_sum == w.string_sum with hpdef
      set q : Word → Bool := fun v => w.compare v with hqdef
      set tw : List Word := S'.reverse.takeWhile p with htwdef
      set dw : List Word := S'.reverse.dropWhile p with hdwdef
      set ana : List Word := tw.filter q with hanadef
      -- the scan over the checksum-sorted segment collects exactly the slots
      -- with the pivot's checksum
      have hdesc : S'.reverse.Pairwise (fun a b => b.string_sum ≤ a.string_sum) := by
        rw [List.pairwise_reverse]
        exact hS'
      have hbound' : ∀ v ∈ S'.reverse, v.string_sum ≤ w.string_sum :=
        fun v hv => hbound v (List.mem_reverse.mp hv)
      have htwf : tw = S'.reverse.filter p :=
        takeWhile_eq_filter_of_desc w.string_sum S'.reverse hdesc hbound'
      have hdwf : dw = S'.reverse.filter (fun a => !(p a)) :=
        dropWhile_eq_filter_not S'.reverse htwf
      have hmem_tw : ∀ v ∈ tw, v ∈ S' := by
        intro v hv
        rw [htwf] at hv
        exact List.mem_reverse.mp ((List.filter_sublist _).subset hv)
      have hmem_dw : ∀ v ∈ dw, v ∈ S' := by
        intro v hv
        rw [hdwf] at hv
        exact List.mem_reverse.mp ((List.filter_sublist _).subset hv)
      have hsum_dw : ∀ v ∈ dw, v.string_sum ≠ w.string_sum := by
        intro v hv
        rw [hdwf] at hv
        have := (List.mem_filter.mp hv).2
        rw [hpdef] at this
        simp only [Bool.not_eq_eq_eq_not, Bool.not_true, beq_eq_false_iff_ne] at this
        exact this
      have hsum_tw : ∀ v ∈ tw, v.string_sum = w.string_sum := by
        intro v hv
        rw [htwf] at hv
        have := (List.mem_filter.mp hv).2
        rw [hpdef] at this
        exact beq_iff_eq.mp this
      have hperm_iff : ∀ v ∈ S', (q v = true ↔ v.string.Perm w.string) := by
        intro v hv
        rw [hqdef]
        constructor
        · intro hq
          exact ((compare_wf_iff hwfw (hwf' v hv) hshortw (hshort' v hv)).mp hq).symm
        · intro hperm
          exact (compare_wf_iff hwfw (hwf' v hv) hshortw (hshort' v hv)).mpr hperm.symm
      have hsum_of_perm : ∀ v ∈ S', v.string.Perm w.string → v.string_sum = w.string_sum := by
        intro v hv hperm
        rw [string_sum_of_wf (hwf' v hv), string_sum_of_wf hwfw]
        exact string_sum_perm hperm
      have hmemS' : ∀ v ∈ S', v ∈ tw ∨ v ∈ dw := by
        intro v hv
        have : v ∈ tw ++ dw := by
          rw [htwdef, hdwdef, List.takeWhile_append_dropWhile]
          exact List.mem_reverse.mpr hv
        exact List.mem_append.mp this
      have hnoperm_dw : ∀ v ∈ dw, ¬ v.string.Perm w.string := by
        intro v hv hperm
        exact hsum_dw v hv (hsum_of_perm v (hmem_dw v hv) hperm)
      split at h
      case isTrue hana =>
        -- no matches: the pivot has no partner in the segment
        have hana_nil : ana = [] := List.isEmpty_iff.mp hana
        have hnq_tw : ∀ v ∈ tw, q v = false := by
          intro v hv
          have := List.filter_eq_nil_iff.mp hana_nil v hv
          exact Bool.not_eq_true _ ▸ (by simpa using this)
        have hnoperm : ∀ v ∈ S', ¬ v.string.Perm w.string := by
          intro v hv hperm
          rcases hmemS' v hv with htw | hdw2
          · have := hnq_tw v htw
            rw [(hperm_iff v hv).2 hperm] at this
            cases this
          · exact hnoperm_dw v hdw2 hperm
        obtain ⟨husage, hnodup, hmem⟩ := ih S' gs gs' hlen' hwf' hshort' hS' hfresh' hnd h
        refine ⟨?_, hnodup, ?_⟩
        · rw [husage]
          congr 1
          have hsplit : (↑((S' ++ [w]).map Word.string) : Multiset (List Byte))
              = ↑(S'.map Word.string) + ({w.string} : Multiset (List Byte)) := by
            rw [List.map_append, ← Multiset.coe_add]
            rfl
          rw [hsplit, pairedMS_add_single]
          intro t ht
          rw [Multiset.mem_coe] at ht
          obtain ⟨v, hv, rfl⟩ := List.mem_map.mp ht
          exact hnoperm v hv
        · intro g hg
          rcases hmem g hg with h1 | ⟨v, hv, hveq⟩
          · exact Or.inl h1
          · exact Or.inr ⟨v, List.mem_append_left _ hv, hveq⟩
      case isFalse hana =>
        -- the pivot's whole class is collected into one fresh group
        have hana_ne : ana ≠ [] := by
          intro hnil
          rw [hnil] at hana
          exact hana rfl
        have hfresh_w : ∀ g ∈ gs, g.1 ≠ w.string :=
          fun g hg => hfresh g hg w (List.mem_append_right _ (List.mem_cons_self _ _))
        have hgs2 : insertGroup gs w.string ana = gs ++ [(w.string, ana)] :=
          insertGroup_fresh ana hfresh_w
        have husage2 : groupUsage (insertGroup gs w.string ana)
            = groupUsage gs + ↑(w.string :: ana.map Word.string) :=
          groupUsage_insert_fresh ana hfresh_w
        -- facts about the remaining words
        set S2 : List Word := dw.reverse ++ (tw.filter (fun v => !(w.compare v))).reverse
          with hS2def
        have hmem_S2 : ∀ v ∈ S2, v ∈ S' := by
          intro v hv
          rcases List.mem_append.mp hv with h1 | h2
          · exact hmem_dw v (List.mem_reverse.mp h1)
          · exact hmem_tw v ((List.filter_sublist _).subset (List.mem_reverse.mp h2))
        have hnoperm_S2 : ∀ v ∈ S2, ¬ v.string.Perm w.string := by
          intro v hv hperm
          rcases List.mem_append.mp hv with h1 | h2
          · exact hnoperm_dw v (List.mem_reverse.mp h1) hperm
          · have hvf := List.mem_reverse.mp h2
            have hnq := (List.mem_filter.mp hvf).2
            have hvtw := (List.filter_sublist _).subset hvf
            have hq := (hperm_iff v (hmem_tw v hvtw)).2 hperm
            simp only [hqdef] at hq
            rw [hq] at hnq
            simp at hnq
        have hS2wf : ∀ v ∈ S2, v = Word.new v.string := fun v hv => hwf' v (hmem_S2 v hv)
        have hS2short : ∀ v ∈ S2, v.string.length < 256 :=
          fun v hv => hshort' v (hmem_S2 v hv)
        have hS'eq : dw.reverse ++ tw.reverse = S' := by
          have happ : tw ++ dw = S'.reverse := by
            rw [htwdef, hdwdef, List.takeWhile_append_dropWhile]
          have := congrArg List.reverse happ
          rwa [List.reverse_append, List.reverse_reverse] at this
        have hS2sorted : S2.Pairwise (fun a b => a.string_sum ≤ b.string_sum) := by
          have hsplit : (dw.reverse ++ tw.reverse).Pairwise
              (fun a b => a.string_sum ≤ b.string_sum) := by
            rw [hS'eq]; exact hS'
          obtain ⟨h1, h2, h3⟩ := List.pairwise_append.mp hsplit
          rw [hS2def]
          apply List.pairwise_append.mpr
          refine ⟨h1, h2.sublist (List.filter_sublist _).reverse, ?_⟩
          intro a ha b hb
          exact h3 a ha b ((List.filter_sublist _).reverse.subset hb)
        have hS2fresh : ∀ g ∈ insertGroup gs w.string ana, ∀ v ∈ S2, g.1 ≠ v.string := by
          rw [hgs2]
          intro g hg v hv
          rcases List.mem_append.mp hg with h1 | h2
          · exact hfresh' g h1 v (hmem_S2 v hv)
          · rw [List.mem_singleton] at h2
            subst h2
            show w.string ≠ v.string
            intro heq
            exact hnoperm_S2 v hv (heq ▸ List.Perm.refl _)
        have hS2nd : ((insertGroup gs w.string ana).map Prod.fst).Nodup :=
          insertGroup_keys_nodup ana hnd
        have hS2len : S2.length ≤ n := by
          have h1 : tw.length + dw.length = S'.length := by
            rw [htwdef, hdwdef]
            have := takeWhile_dropWhile_length p S'.reverse
            rwa [List.length_reverse] at this
          have h2 := List.length_filter_le (fun v => !(w.compare v)) tw
          rw [hS2def, List.length_append, List.length_reverse, List.length_reverse]
          omega
        obtain ⟨husage', hnodup', hmem'⟩ :=
          ih S2 (insertGroup gs w.string ana) gs' hS2len hS2wf hS2short hS2sorted hS2fresh
            hS2nd h
        -- multiset bookkeeping: the segment splits into the pivot's class and the rest
        have hpart : (↑(ana.map Word.string) : Multiset (List Byte)) + ↑(S2.map Word.string)
            = ↑(S'.map Word.string) := by
          rw [hanadef, hS2def, htwdef, hdwdef, hqdef, hpdef]
          exact scan_strings_partition w S'
        have hclass : (↑((S' ++ [w]).map Word.string) : Multiset (List Byte))
            = ↑(S2.map Word.string) + ↑(w.string :: ana.map Word.string) := by
          have hsplit : (↑((S' ++ [w]).map Word.string) : Multiset (List Byte))
              = ↑(S'.map Word.string) + ({w.string} : Multiset (List Byte)) := by
            rw [List.map_append, ← Multiset.coe_add]
            rfl
          rw [hsplit, ← hpart]
          have hcons : (↑(w.string :: ana.map Word.string) : Multiset (List Byte))
              = ({w.string} : Multiset (List Byte)) + ↑(ana.map Word.string) := by
            rw [Multiset.singleton_add, Multiset.cons_coe]
          rw [hcons]
          have : (↑(ana.map Word.string) : Multiset (List Byte)) + ↑(S2.map Word.string)
                + ({w.string} : Multiset (List Byte))
              = ↑(S2.map Word.string)
                + (({w.string} : Multiset (List Byte)) + ↑(ana.map Word.string)) := by
            rw [add_comm (↑(ana.map Word.string) : Multiset (List Byte)) _, add_assoc,
              add_comm (↑(ana.map Word.string) : Multiset (List Byte)) _, ← add_assoc,
              add_assoc]
          rw [this]
        have hpaired : pairedMS ↑((S' ++ [w]).map Word.string)
            = ↑(w.string :: ana.map Word.string) + pairedMS ↑(S2.map Word.string) := by
          rw [hclass]
          apply pairedMS_add_class _ _ w.string
          · intro s hs
            rw [Multiset.mem_coe, List.mem_cons] at hs
            rcases hs with rfl | hs2
            · exact List.Perm.refl _
            · obtain ⟨v, hv, rfl⟩ := List.mem_map.mp hs2
              have hvtw := (List.filter_sublist _).subset hv
              have hq := (List.mem_filter.mp hv).2
              exact (hperm_iff v (hmem_tw v hvtw)).1 hq
          · intro t ht
            rw [Multiset.mem_coe] at ht
            obtain ⟨v, hv, rfl⟩ := List.mem_map.mp ht
            exact hnoperm_S2 v hv
          · rw [Multiset.coe_card]
            have : 0 < ana.length := List.length_pos.mpr hana_ne
            simp only [List.length_cons, List.length_map]
            omega
        refine ⟨?_, hnodup', ?_⟩
        · rw [husage', husage2, hpaired, add_assoc]
        · intro g hg
          rcases hmem' g hg with h1 | ⟨v, hv, hveq⟩
          · rw [hgs2] at h1
            rcases List.mem_append.mp h1 with h2 | h3
            · exact Or.inl h2
            · rw [List.mem_singleton] at h3
              subst h3
              exact Or.inr ⟨w, List.mem_append_right _ (List.mem_cons_self _ _), rfl⟩
          · exact Or.inr ⟨v, List.mem_append_left _ (hmem_S2 v hv), hveq⟩

theorem foldl_bind_runs_none (rs : List (List Word)) :
    rs.foldl (fun acc r => acc.bind (fun groups => segLoop (r.map some) groups)) none
      = none := by
  induction rs with
  | nil => rfl
  | cons r rest ih => rw [List.foldl_cons, Option.none_bind]; exact ih

theorem coe_sum_flatten :
    ∀ runs : List (List Word),
      (runs.map (fun r => (↑(r.map Word.string) : Multiset (List Byte)))).sum
        = ↑((runs.flatten).map Word.string) := by
  intro runs
  induction runs with
  | nil => rfl
  | cons r rest ih =>
    rw [List.map_cons, List.sum_cons, ih, List.flatten_cons, List.map_append,
      ← Multiset.coe_add]

/-- Folding the pivot loop over the length-runs of a well-formed short
vocabulary adds to the accumulated groups exactly the paired words of each
run, keeping keys nodup and keys drawn from processed runs. -/
theorem fold_runs_complete :
    ∀ (runs : List (List Word)) (gs gs' : List (List Byte × List Word)),
      (∀ r ∈ runs, ∀ v ∈ r, v = Word.new v.string) →
      (∀ r ∈ runs, ∀ v ∈ r, v.string.length < 256) →
      (∀ r ∈ runs, r.Pairwise (fun a b => a.string_sum ≤ b.string_sum)) →
      runs.Pairwise (fun r s => ∀ a ∈ r, ∀ b ∈ s, a.len < b.len) →
      (∀ p ∈ gs, ∀ r ∈ runs, ∀ v ∈ r, p.1 ≠ v.string) →
      (gs.map Prod.fst).Nodup →
      runs.foldl (fun acc r => acc.bind (fun groups => segLoop (r.map some) groups))
        (some gs) = some gs' →
      groupUsage gs' = groupUsage gs
          + (runs.map (fun r => pairedMS ↑(r.map Word.string))).sum ∧
        (gs'.map Prod.fst).Nodup ∧
        (∀ p ∈ gs', p ∈ gs ∨ ∃ r ∈ runs, ∃ v ∈ r, p.1 = v.string) := by
  intro runs
  induction runs with
  | nil =>
    intro gs gs' _ _ _ _ _ hnd h
    rw [List.foldl_nil] at h
    injection h with h
    subst h
    exact ⟨by rw [List.map_nil, List.sum_nil, add_zero], hnd,
      fun p hp => Or.inl hp⟩
  | cons r rest ih =>
    intro gs gs' hwf hshort hsorted hlens hfresh hnd h
    rw [List.foldl_cons, Option.some_bind] at h
    cases hseg : segLoop (r.map some) gs with
    | none =>
      rw [hseg, foldl_bind_runs_none] at h
      exact absurd h (by simp)
    | some gs1 =>
      rw [hseg] at h
      have hr := List.mem_cons_self r rest
      obtain ⟨husage1, hnd1, hmem1⟩ :=
        segLoop_complete r.length r gs gs1 (le_refl _) (hwf r hr) (hshort r hr)
          (hsorted r hr) (fun p hp v hv => hfresh p hp r hr v hv) hnd hseg
      have hlens' := (List.pairwise_cons.mp hlens).2
      have hlen_head := (List.pairwise_cons.mp hlens).1
      have hfresh1 : ∀ p ∈ gs1, ∀ s ∈ rest, ∀ v ∈ s, p.1 ≠ v.string := by
        intro p hp s hs v hv
        rcases hmem1 p hp with h1 | ⟨u, hu, hueq⟩
        · exact hfresh p h1 s (List.mem_cons_of_mem _ hs) v hv
        · rw [hueq]
          intro heq
          have hlt := hlen_head s hs u hu v hv
          have : u.string.length = v.string.length := by rw [heq]
          exact absurd this (by unfold Word.len at hlt; omega)
      obtain ⟨husage', hnd', hmem'⟩ :=
        ih gs1 gs' (fun s hs => hwf s (List.mem_cons_of_mem _ hs))
          (fun s hs => hshort s (List.mem_cons_of_mem _ hs))
          (fun s hs => hsorted s (List.mem_cons_of_mem _ hs)) hlens' hfresh1 hnd1 h
      refine ⟨?_, hnd', ?_⟩
      · rw [husage', husage1, List.map_cons, List.sum_cons, add_assoc]
      · intro p hp
        rcases hmem' p hp with h1 | ⟨s, hs, u, hu, hueq⟩
        · rcases hmem1 p h1 with h2 | ⟨u, hu, hueq⟩
          · exact Or.inl h2
          · exact Or.inr ⟨r, hr, u, hu, hueq⟩
        · exact Or.inr ⟨s, List.mem_cons_of_mem _ hs, u, hu, hueq⟩

/-- Claim C4 (amended: for vocabularies whose words are shorter than 256
bytes): every word with at least one anagram partner in the vocabulary
appears in exactly one group — as key or member — and every word with no
partner appears in no group: the multiset of word occurrences stored in
the final mapping equals the multiset of input words having an anagram
partner. -/
theorem C4_completeness (raw : List (List Byte))
    (hshort : ∀ s ∈ raw, s.length < 256) (gs : List (List Byte × List Word))
    (h : mainGroups raw = some gs) :
    groupUsage gs = pairedMS ↑raw := by
  rw [mainGroups_eq_fold_runs] at h
  set runs := lenRuns (WordList.from_file raw) with hrunsdef
  have hmemv : ∀ r ∈ runs, ∀ v ∈ r, v ∈ WordList.from_file raw := by
    intro r hr v hv
    rw [← lenRuns_flatten (WordList.from_file raw)]
    exact List.mem_flatten.mpr ⟨r, hr, hv⟩
  have hwf : ∀ r ∈ runs, ∀ v ∈ r, v = Word.new v.string :=
    fun r hr v hv => from_file_wf raw v (hmemv r hr v hv)
  have hshortw : ∀ r ∈ runs, ∀ v ∈ r, v.string.length < 256 := by
    intro r hr v hv
    apply hshort
    exact (from_file_perm raw).mem_iff.mp
      (List.mem_map_of_mem Word.string (hmemv r hr v hv))
  have hsorted := lenRuns_sum_sorted raw
  have hlens := lenRuns_len_lt raw
  obtain ⟨husage, -, -⟩ :=
    fold_runs_complete runs [] gs hwf hshortw hsorted hlens
      (fun p hp => absurd hp (List.not_mem_nil p)) List.nodup_nil h
  rw [groupUsage_nil, zero_add] at husage
  have hAs : (runs.map (fun r => (↑(r.map Word.string) : Multiset (List Byte)))).Pairwise
      (fun A B => ∀ a ∈ A, ∀ b ∈ B, ¬ a.Perm b) := by
    rw [List.pairwise_map]
    apply hlens.imp
    intro r s hrs a ha b hb
    rw [Multiset.mem_coe] at ha hb
    obtain ⟨u, hu, rfl⟩ := List.mem_map.mp ha
    obtain ⟨v, hv, rfl⟩ := List.mem_map.mp hb
    intro hperm
    have h1 := hrs u hu v hv
    have h2 := hperm.length_eq
    unfold Word.len at h1
    omega
  have hperm : (↑((WordList.from_file raw).map Word.string) : Multiset (List Byte))
      = ↑raw := Multiset.coe_eq_coe.mpr (from_file_perm raw)
  rw [husage]
  calc (runs.map (fun r => pairedMS ↑(r.map Word.string))).sum
      = ((runs.map (fun r => (↑(r.map Word.string) : Multiset (List Byte)))).map
          pairedMS).sum := by
        rw [List.map_map]
        rfl
    _ = pairedMS ((runs.map
          (fun r => (↑(r.map Word.string) : Multiset (List Byte)))).sum) :=
        (pairedMS_list_sum _ hAs).symm
    _ = pairedMS ↑((runs.flatten).map Word.string) := by rw [coe_sum_flatten]
    _ = pairedMS ↑raw := by rw [hrunsdef, lenRuns_flatten, hperm]

theorem C4_witness :
    (∀ s ∈ ([abL, baL] : List (List Byte)), s.length < 256) ∧
      mainGroups [abL, baL] = some [(baL, [Word.new abL])] ∧
      groupUsage [(baL, [Word.new abL])]
        = pairedMS ↑([abL, baL] : List (List Byte)) :=
  ⟨by decide, by decide, C4_completeness [abL, baL] (by decide) _ (by decide)⟩

theorem fold_runs_usage :
    ∀ (runs : List (List Word)) (gs gs' : List (List Byte × List Word)),
      (gs.map Prod.fst).Nodup →
      runs.foldl (fun acc r => acc.bind (fun groups => segLoop (r.map some) groups))
        (some gs) = some gs' →
      groupUsage gs' ≤ groupUsage gs + ↑((runs.flatten).map Word.string) ∧
        (gs'.map Prod.fst).Nodup := by
  intro runs
  induction runs with
  | nil =>
    intro gs gs' hnd h
    rw [List.foldl_nil] at h
    injection h with h
    subst h
    exact ⟨by rw [List.flatten_nil, List.map_nil]; simp, hnd⟩
  | cons r rest ih =>
    intro gs gs' hnd h
    rw [List.foldl_cons, Option.some_bind] at h
    cases hseg : segLoop (r.map some) gs with
    | none =>
      rw [hseg, foldl_bind_runs_none] at h
      exact absurd h (by simp)
    | some gs1 =>
      rw [hseg] at h
      obtain ⟨husage1, hnd1⟩ := segLoop_usage r.length r gs gs1 (le_refl _) hnd hseg
      obtain ⟨husage', hnd'⟩ := ih gs1 gs' hnd1 h
      refine ⟨?_, hnd'⟩
      have hflat : (↑(((r :: rest).flatten).map Word.string) : Multiset (List Byte))
          = ↑(r.map Word.string) + ↑((rest.flatten).map Word.string) := by
        rw [List.flatten_cons, List.map_append, ← Multiset.coe_add]
      rw [hflat]
      calc groupUsage gs'
          ≤ groupUsage gs1 + ↑((rest.flatten).map Word.string) := husage'
        _ ≤ (groupUsage gs + ↑(r.map Word.string))
              + ↑((rest.flatten).map Word.string) :=
            add_le_add_right husage1 _
        _ = groupUsage gs + (↑(r.map Word.string)
              + ↑((rest.flatten).map Word.string)) := by rw [add_assoc]

/-- Claim C5: every input word occurrence is stored in the final mapping at
most once — the multiset of all stored occurrences (group keys together
with all member-list entries) is a sub-multiset of the input vocabulary,
and the group keys are pairwise distinct. -/
theorem C5_at_most_once (raw : List (List Byte)) (gs : List (List Byte × List Word))
    (h : mainGroups raw = some gs) :
    groupUsage gs ≤ ↑raw ∧ (gs.map Prod.fst).Nodup := by
  rw [mainGroups_eq_fold_runs] at h
  obtain ⟨husage, hnd⟩ :=
    fold_runs_usage (lenRuns (WordList.from_file raw)) [] gs List.nodup_nil h
  refine ⟨?_, hnd⟩
  rw [groupUsage_nil, zero_add, lenRuns_flatten] at husage
  rwa [Multiset.coe_eq_coe.mpr (from_file_perm raw)] at husage

theorem C5_witness :
    mainGroups [abL, baL, abL] = some [(abL, [Word.new baL, Word.new abL])] ∧
      groupUsage [(abL, [Word.new baL, Word.new abL])]
          ≤ ↑([abL, baL, abL] : List (List Byte)) ∧
        ([(abL, [Word.new baL, Word.new abL])].map Prod.fst).Nodup :=
  ⟨by decide, C5_at_most_once [abL, baL, abL] _ (by decide)⟩
